import Mathlib

/-!
# VMKit: lock-guarded symbol tables and lazy method materialization

A shallow embedding of

* `lib/JnJVM/VMCore/LockedMap.h` (`ltutf8`, `LockedMap`, `StringMap`, `TypeMap`),
* `lib/N3/VMCore/N3ModuleProvider.cpp` (`N3ModuleProvider::materializeFunction`),

followed by theorems about them.

Pointers are natural numbers, `0` being the null pointer.  A `std::map` is its
sequence of entries in comparator order; `find`, `insert` and `erase` are the
ordered-container operations (`lower_bound`, `upper_bound`) on that sequence.
-/

namespace VMKit

/-! ## `std::map<Key, Container, Compare>` -/

section StdMap

variable {K C : Type}

/-- The part of the entry sequence starting at the first entry whose key is
not less than `k` (`std::map::lower_bound`). -/
def lowerBound (lt : K → K → Bool) (k : K) : List (K × C) → List (K × C)
  | [] => []
  | p :: rest => if lt p.1 k then lowerBound lt k rest else p :: rest

/-- The part of the entry sequence starting at the first entry whose key is
greater than `k` (`std::map::upper_bound`). -/
def upperBound (lt : K → K → Bool) (k : K) : List (K × C) → List (K × C)
  | [] => []
  | p :: rest => if lt k p.1 then p :: rest else upperBound lt k rest

/-- The entry `std::map::find` points at: the lower bound of `k`, unless `k`
is less than it; `none` is the `end()` iterator. -/
def find (lt : K → K → Bool) (k : K) (m : List (K × C)) : Option (K × C) :=
  match lowerBound lt k m with
  | [] => none
  | p :: _ => if lt k p.1 then none else some p

/-- The map after `std::map::insert(std::make_pair(k, c))`: the pair is put at
its place in the order, unless an entry with an equivalent key is there
already, in which case the map is left as it is. -/
def insert (lt : K → K → Bool) (k : K) (c : C) : List (K × C) → List (K × C)
  | [] => [(k, c)]
  | p :: rest =>
    if lt p.1 k then p :: insert lt k c rest
    else if lt k p.1 then (k, c) :: p :: rest
    else p :: rest

/-- The map after `std::map::erase(k)`: the range from the lower bound to the
upper bound of `k` is taken out. -/
def erase (lt : K → K → Bool) (k : K) : List (K × C) → List (K × C)
  | [] => []
  | p :: rest =>
    if lt p.1 k then p :: erase lt k rest
    else upperBound lt k (p :: rest)

/-- The entries are in strictly increasing key order, the representation
invariant of a `std::map`. -/
def Ordered (lt : K → K → Bool) (m : List (K × C)) : Prop :=
  m.Pairwise (fun p q => lt p.1 q.1 = true)

end StdMap

/-- The requirements of the C++ standard on a `Compare` argument: a strict
weak ordering. -/
structure StrictWeak {K : Type} (lt : K → K → Bool) : Prop where
  irrefl : ∀ a, lt a a = false
  trans : ∀ a b c, lt a b = true → lt b c = true → lt a c = true
  incomp : ∀ a b c, lt a b = false → lt b a = false → lt b c = false → lt c b = false →
    lt a c = false ∧ lt c a = false

/-- The comparator `std::less<T*>` on pointers. -/
def ptrLess (a b : Nat) : Bool := decide (a < b)

/-! ## `ltutf8` -/

/-- A `UTF8` symbol: the address of the object, and its `elements`, an array of
`uint16` of length `size`. -/
structure UTF8 where
  addr : Nat
  elements : List Nat
deriving DecidableEq, Repr

/-- The field `size` of a symbol. -/
def UTF8.size (s : UTF8) : Nat := s.elements.length

/-- The bytes of an array of `uint16` as they lie in memory. -/
def bytesOf (bigEndian : Bool) : List Nat → List Nat
  | [] => []
  | e :: rest =>
    if bigEndian then (e / 256 % 256) :: (e % 256) :: bytesOf bigEndian rest
    else (e % 256) :: (e / 256 % 256) :: bytesOf bigEndian rest

/-- The sign of `memcmp(a, b, n)`: the first `n` bytes are compared as
unsigned characters, the first difference decides. -/
def memcmp : List Nat → List Nat → Nat → Int
  | _, _, 0 => 0
  | [], _, _ + 1 => 0
  | _ :: _, [], _ + 1 => 0
  | x :: xs, y :: ys, n + 1 =>
    if x < y then -1 else if y < x then 1 else memcmp xs ys n

/-- The comparator `ltutf8::operator()`.  With `MULTIPLE_VM` the sizes are
compared first and `memcmp` decides between symbols of one size; without it
the two pointers are compared. -/
def ltutf8 (multipleVM bigEndian : Bool) (s1 s2 : UTF8) : Bool :=
  if multipleVM then
    if s1.size < s2.size then true
    else if s1.size > s2.size then false
    else decide (memcmp (bytesOf bigEndian s1.elements) (bytesOf bigEndian s2.elements)
      (s1.size * 2) < 0)
  else decide (s1.addr < s2.addr)

/-! ## `LockedMap` -/

/-- A `LockedMap<Key, Container, Compare>` with what its operations act on:
the lock, the map, the state `world` of the virtual machine that a creator
function reads and writes, and the number of times a creator function has
been invoked. -/
structure LockedMap (K C W : Type) where
  locked : Bool
  map : List (K × C)
  world : W
  created : Nat

namespace LockedMap

variable {K C W Vm : Type}

/-- The call `lock->lock()`: the caller goes on once it holds the lock. -/
def lock (s : LockedMap K C W) : LockedMap K C W := { s with locked := true }

/-- The call `lock->unlock()`. -/
def unlock (s : LockedMap K C W) : LockedMap K C W := { s with locked := false }

/-- The method `LockedMap::lookupOrCreate(V, vm, func)`. -/
def lookupOrCreate (lt : K → K → Bool) (V : K) (vm : Vm) (func : K → Vm → W → C × W)
    (s : LockedMap K C W) : C × LockedMap K C W :=
  let s := s.lock
  match find lt V s.map with
  | none =>
    let r := func V vm s.world
    let s := { s with world := r.2, created := s.created + 1 }
    let s := { s with map := insert lt V r.1 s.map }
    (r.1, s.unlock)
  | some I => (I.2, s.unlock)

/-- The method `LockedMap::remove(V)`. -/
def remove (lt : K → K → Bool) (V : K) (s : LockedMap K C W) : LockedMap K C W :=
  let s := s.lock
  let s := { s with map := erase lt V s.map }
  s.unlock

/-- The method `LockedMap::lookup(V)`; the null container is `0`. -/
def lookup [Zero C] (lt : K → K → Bool) (V : K) (s : LockedMap K C W) :
    C × LockedMap K C W :=
  let s := s.lock
  let I := find lt V s.map
  let s := s.unlock
  (match I with
   | some I => I.2
   | none => 0, s)

/-- The method `LockedMap::hash(k, c)`. -/
def hash (lt : K → K → Bool) (k : K) (c : C) (s : LockedMap K C W) : LockedMap K C W :=
  let s := s.lock
  let s := { s with map := insert lt k c s.map }
  s.unlock

end LockedMap

/-! ## `TypeMap` -/

/-- A `TypeMap`: a lock and a `std::map<const UTF8*, Typedef*, ltutf8>`. -/
structure TypeMap where
  locked : Bool
  map : List (UTF8 × Nat)

namespace TypeMap

/-- The method `TypeMap::lookup(V)`. -/
def lookup (multipleVM bigEndian : Bool) (V : UTF8) (s : TypeMap) : Nat × TypeMap :=
  let s := { s with locked := true }
  let I := find (ltutf8 multipleVM bigEndian) V s.map
  let s := { s with locked := false }
  (match I with
   | some I => I.2
   | none => 0, s)

/-- The method `TypeMap::hash(k, c)`. -/
def hash (multipleVM bigEndian : Bool) (k : UTF8) (c : Nat) (s : TypeMap) : TypeMap :=
  let s := { s with locked := true }
  let s := { s with map := insert (ltutf8 multipleVM bigEndian) k c s.map }
  { s with locked := false }

end TypeMap

/-! ## `StringMap` -/

/-- A `StringMap`: a lock and a `std::map<const UTF8*, JavaString*, ltutf8>`,
with the state a creator function acts on and the number of invocations of a
creator function. -/
structure StringMap (W : Type) where
  locked : Bool
  map : List (UTF8 × Nat)
  world : W
  created : Nat

/-- The method `StringMap::lookupOrCreate(V, vm, func)`. -/
def StringMap.lookupOrCreate {W Vm : Type} (multipleVM bigEndian : Bool) (V : UTF8) (vm : Vm)
    (func : UTF8 → Vm → W → Nat × W) (s : StringMap W) : Nat × StringMap W :=
  let s := { s with locked := true }
  match find (ltutf8 multipleVM bigEndian) V s.map with
  | none =>
    let r := func V vm s.world
    let s := { s with world := r.2, created := s.created + 1 }
    let s := { s with map := insert (ltutf8 multipleVM bigEndian) V r.1 s.map }
    (r.1, { s with locked := false })
  | some I => (I.2, { s with locked := false })

/-! ## Concurrent calls of `lookupOrCreate`

Several threads call `lookupOrCreate(V, vm, func)` on one table.  Each
statement of the method is one step of a thread; a schedule names the thread
that takes the next step.  The lock of the table is exclusive: `lock->lock()`
goes through only while the lock is free.  The creator is handed the key by
reference and is taken to leave it as it is. -/

/-- The place of a thread in `lookupOrCreate`. -/
inductive TablePc (K C : Type)
  /-- Before `lock->lock()` -/
  | start
  /-- With the lock, before `map.find(V)` -/
  | search
  /-- The key was not found: before `func(V, vm)` -/
  | create
  /-- Before `map.insert(std::make_pair(V, res))` -/
  | insert (res : C)
  /-- Before `lock->unlock()` on the creating branch -/
  | unlockNew (res : C)
  /-- The key was found at the entry `I`: before `lock->unlock()` -/
  | unlockOld (I : K × C)
  /-- Before `return I->second`, the lock released -/
  | returnOld (I : K × C)
  /-- Returned `res` -/
  | done (res : C)
deriving DecidableEq

/-- A table and the place of each thread in a call of `lookupOrCreate` on
it. -/
structure TableSys (K C W : Type) where
  table : LockedMap K C W
  pc : Nat → TablePc K C

/-- Thread `t` is moved to the place `p`. -/
def TableSys.goto {K C W : Type} (s : TableSys K C W) (t : Nat) (p : TablePc K C) :
    TableSys K C W :=
  { s with pc := Function.update s.pc t p }

/-- One step of thread `t` in `LockedMap::lookupOrCreate(V, vm, func)`.  A
thread at `lock->lock()` stays where it is while the lock is held, and a
thread that has returned stays where it is. -/
def LockedMap.step {K C W Vm : Type} (lt : K → K → Bool) (V : K) (vm : Vm)
    (func : K → Vm → W → C × W) (t : Nat) (s : TableSys K C W) : TableSys K C W :=
  match s.pc t with
  | TablePc.start =>
    if s.table.locked then s
    else { s with table := s.table.lock }.goto t TablePc.search
  | TablePc.search =>
    match find lt V s.table.map with
    | none => s.goto t TablePc.create
    | some I => s.goto t (TablePc.unlockOld I)
  | TablePc.create =>
    let r := func V vm s.table.world
    { s with table := { s.table with world := r.2, created := s.table.created + 1 } }.goto t
      (TablePc.insert r.1)
  | TablePc.insert res =>
    { s with table := { s.table with map := insert lt V res s.table.map } }.goto t
      (TablePc.unlockNew res)
  | TablePc.unlockNew res => { s with table := s.table.unlock }.goto t (TablePc.done res)
  | TablePc.unlockOld I => { s with table := s.table.unlock }.goto t (TablePc.returnOld I)
  | TablePc.returnOld I => s.goto t (TablePc.done I.2)
  | TablePc.done _ => s

/-- The state after the threads have taken steps of `lookupOrCreate` in the
order of the schedule. -/
def LockedMap.runSchedule {K C W Vm : Type} (lt : K → K → Bool) (V : K) (vm : Vm)
    (func : K → Vm → W → C × W) : List Nat → TableSys K C W → TableSys K C W
  | [], s => s
  | t :: rest, s =>
    LockedMap.runSchedule lt V vm func rest (LockedMap.step lt V vm func t s)

/-- The state in which every thread is about to call `lookupOrCreate` on the
table. -/
def TableSys.init {K C W : Type} (tb : LockedMap K C W) : TableSys K C W :=
  ⟨tb, fun _ => TablePc.start⟩

/-- The schedule in which the threads `0` to `n - 1` take their turns one
after the other, five steps each, which is a whole call. -/
def turnSchedule : Nat → List Nat
  | 0 => []
  | n + 1 => turnSchedule n ++ List.replicate 5 n

/-- A `StringMap` and the place of each thread in a call of
`StringMap::lookupOrCreate` on it. -/
structure StringSys (W : Type) where
  table : StringMap W
  pc : Nat → TablePc UTF8 Nat

/-- One step of thread `t` in `StringMap::lookupOrCreate(V, vm, func)`. -/
def StringMap.step {W Vm : Type} (multipleVM bigEndian : Bool) (V : UTF8) (vm : Vm)
    (func : UTF8 → Vm → W → Nat × W) (t : Nat) (s : StringSys W) : StringSys W :=
  match s.pc t with
  | TablePc.start =>
    if s.table.locked then s
    else ⟨{ s.table with locked := true }, Function.update s.pc t TablePc.search⟩
  | TablePc.search =>
    match find (ltutf8 multipleVM bigEndian) V s.table.map with
    | none => ⟨s.table, Function.update s.pc t TablePc.create⟩
    | some I => ⟨s.table, Function.update s.pc t (TablePc.unlockOld I)⟩
  | TablePc.create =>
    let r := func V vm s.table.world
    ⟨{ s.table with world := r.2, created := s.table.created + 1 },
      Function.update s.pc t (TablePc.insert r.1)⟩
  | TablePc.insert res =>
    ⟨{ s.table with map := insert (ltutf8 multipleVM bigEndian) V res s.table.map },
      Function.update s.pc t (TablePc.unlockNew res)⟩
  | TablePc.unlockNew res =>
    ⟨{ s.table with locked := false }, Function.update s.pc t (TablePc.done res)⟩
  | TablePc.unlockOld I =>
    ⟨{ s.table with locked := false }, Function.update s.pc t (TablePc.returnOld I)⟩
  | TablePc.returnOld I => ⟨s.table, Function.update s.pc t (TablePc.done I.2)⟩
  | TablePc.done _ => s

/-- The state after the threads have taken steps of
`StringMap::lookupOrCreate` in the order of the schedule. -/
def StringMap.runSchedule {W Vm : Type} (multipleVM bigEndian : Bool) (V : UTF8) (vm : Vm)
    (func : UTF8 → Vm → W → Nat × W) : List Nat → StringSys W → StringSys W
  | [], s => s
  | t :: rest, s =>
    StringMap.runSchedule multipleVM bigEndian V vm func rest
      (StringMap.step multipleVM bigEndian V vm func t s)

/-- The state in which every thread is about to call
`StringMap::lookupOrCreate` on the table. -/
def StringSys.init {W : Type} (tb : StringMap W) : StringSys W :=
  ⟨tb, fun _ => TablePc.start⟩

/-- A `StringSys` seen as the `TableSys` of the `LockedMap` with the same
lock, map, creator state and invocation count. -/
def StringSys.toTableSys {W : Type} (s : StringSys W) : TableSys UTF8 Nat W :=
  ⟨⟨s.table.locked, s.table.map, s.table.world, s.table.created⟩, s.pc⟩

/-- Whether a thread at this place holds the lock of the table. -/
def TablePc.inLock {K C : Type} : TablePc K C → Bool
  | TablePc.search => true
  | TablePc.create => true
  | TablePc.insert _ => true
  | TablePc.unlockNew _ => true
  | TablePc.unlockOld _ => true
  | _ => false

/-- The value a thread at this place is about to return or has returned, if
it has one already. -/
def TablePc.value {K C : Type} : TablePc K C → Option C
  | TablePc.unlockNew res => some res
  | TablePc.unlockOld I => some I.2
  | TablePc.returnOld I => some I.2
  | TablePc.done res => some res
  | _ => none

/-- What holds of every state that calls of `lookupOrCreate(V, vm, func)`
reach from a table `tb` without the key: a thread between `lock()` and
`unlock()` finds the lock held, and there is one such thread at most; a thread
about to create finds the table without the key and no creation made; a thread
about to insert carries the value the one creation made; a thread with a value
has that value and finds it installed; and the creator has not been invoked,
or it has been invoked once and its value is installed or about to be. -/
structure TableInv {K C W Vm : Type} (lt : K → K → Bool) (V : K) (vm : Vm)
    (func : K → Vm → W → C × W) (tb : LockedMap K C W) (s : TableSys K C W) : Prop where
  held : ∀ t, (s.pc t).inLock = true → s.table.locked = true
  alone : ∀ t u, (s.pc t).inLock = true → (s.pc u).inLock = true → t = u
  creating : ∀ t, s.pc t = TablePc.create →
    s.table.created = tb.created ∧ s.table.world = tb.world ∧ find lt V s.table.map = none
  inserting : ∀ t res, s.pc t = TablePc.insert res →
    res = (func V vm tb.world).1 ∧ s.table.created = tb.created + 1 ∧
    s.table.world = (func V vm tb.world).2 ∧ find lt V s.table.map = none
  valued : ∀ t res, (s.pc t).value = some res →
    res = (func V vm tb.world).1 ∧ s.table.created = tb.created + 1 ∧
    s.table.world = (func V vm tb.world).2 ∧
    find lt V s.table.map = some (V, (func V vm tb.world).1)
  once : (s.table.created = tb.created ∧ s.table.world = tb.world ∧
      find lt V s.table.map = none) ∨
    (s.table.created = tb.created + 1 ∧ s.table.world = (func V vm tb.world).2 ∧
      (find lt V s.table.map = some (V, (func V vm tb.world).1) ∨
        ∃ t, s.pc t = TablePc.insert (func V vm tb.world).1))

/-! ## `N3ModuleProvider::materializeFunction`

Functions, method records, classes and code are named by their addresses.  The
execution engine, the module and whatever else the compiler service and the
static initializers act on make up a state of type `E` that the function only
reaches through the calls collected in `Env`. -/

/-- What `materializeFunction` calls and reads without defining it.  The
compiler service and the address resolution fail by returning `none`; the
failure is not caught by `materializeFunction`. -/
structure Env (E : Type) where
  /-- The test `F->empty()` -/
  empty : E → Nat → Bool
  /-- The call `functions->lookup(F)`, `0` when `F` has no record -/
  functions : Nat → Nat
  /-- The field `methPtr` of a method record -/
  methPtr : Nat → Nat
  /-- The field `classDef` of a method record -/
  classDef : Nat → Nat
  /-- The size `sizeof(intptr_t)` -/
  ptrBytes : Nat
  /-- The call `executionEngine->getPointerToGlobalIfAvailable(f)`, `0` when `f` has no
  address yet -/
  getPointerToGlobalIfAvailable : E → Nat → Nat
  /-- The call `classDef->aquire()` as the engine state sees it: the state the
  caller finds when it has got the lock, after the threads it waited for have
  run -/
  aquire : Nat → E → E
  /-- The call `CLIJit::compile(classDef, meth)` -/
  compile : Nat → Nat → E → Option E
  /-- The call `executionEngine->getPointerToGlobal(f)` -/
  getPointerToGlobal : Nat → E → Option (Nat × E)
  /-- The call `classDef->resolveStatic(true)` -/
  resolveStatic : Nat → E → E

/-- The address `(mvm::Code*)((intptr_t)res - sizeof(intptr_t))`, computed in
pointer-wide arithmetic. -/
def codeOf (ptrBytes res : Nat) : Nat :=
  (res + 2 ^ (8 * ptrBytes) - ptrBytes) % 2 ^ (8 * ptrBytes)

/-- The state `materializeFunction` acts on.  The compiler service and the
static initializers act on the engine state; the hold counts, the code fields
and the back-links are written by `materializeFunction` alone. -/
structure World (E : Type) where
  engine : E
  /-- The number of acquisitions of the lock of each class by the calling
  thread that it has not released -/
  held : Nat → Nat
  /-- The field `code` of each method record -/
  code : Nat → Nat
  /-- The back-link `code->method()->definition()` of each code address -/
  definition : Nat → Nat

/-- Modelled from the spec: the call `classDef->aquire()` on the lock of a
class, which is reentrant-capable and whose code (`VMClass`) is not among the
sources.  The caller goes on once it holds the lock: its hold count goes up by
one, and it finds the engine state that the threads it waited for have left. -/
def World.aquire {E : Type} (env : Env E) (c : Nat) (w : World E) : World E :=
  { w with held := Function.update w.held c (w.held c + 1),
           engine := env.aquire c w.engine }

/-- Modelled from the spec: the call `classDef->release()` on the lock of a
class: the hold count of the caller goes down by one. -/
def World.release {E : Type} (c : Nat) (w : World E) : World E :=
  { w with held := Function.update w.held c (w.held c - 1) }

/-- What a call of `materializeFunction` does, in order. -/
inductive Event
  | lookup (F : Nat)
  | getPointerToGlobalIfAvailable (f res : Nat)
  | aquire (c : Nat)
  | compile (c meth : Nat)
  | getPointerToGlobal (f : Nat)
  | setCode (meth code : Nat)
  | setDefinition (code meth : Nat)
  | release (c : Nat)
  | resolveStatic (c : Nat)
deriving DecidableEq, Repr

/-- How a call ends: it returns a boolean, or a failure of the compiler
service leaves it. -/
inductive Outcome
  | returned (b : Bool)
  | raised
deriving DecidableEq, Repr

/-- A finished call: how it ended, the state it left, and its events, each
with the state in which it was issued. -/
structure Run (E : Type) where
  outcome : Outcome
  world : World E
  trace : List (Event × World E)

/-- Lines 45 to 48: the lock is released, static initialization is requested,
`false` is returned. -/
def releaseAndResolve {E : Type} (env : Env E) (meth : Nat) (w : World E)
    (t : List (Event × World E)) : Run E :=
  let c := env.classDef meth
  let w1 := w.release c
  let w2 := { w1 with engine := env.resolveStatic c w1.engine }
  ⟨Outcome.returned false, w2, t ++ [(Event.release c, w), (Event.resolveStatic c, w1)]⟩

/-- The method `N3ModuleProvider::materializeFunction(F, ErrInfo)`. -/
def materializeFunction {E : Type} (env : Env E) (F : Nat) (w : World E) : Run E :=
  if !env.empty w.engine F then ⟨Outcome.returned false, w, []⟩
  else
    let meth := env.functions F
    let t := [(Event.lookup F, w)]
    if meth = 0 then ⟨Outcome.returned false, w, t⟩
    else
      let f := env.methPtr meth
      let c := env.classDef meth
      let res := env.getPointerToGlobalIfAvailable w.engine f
      let t := t ++ [(Event.getPointerToGlobalIfAvailable f res, w)]
      if res = 0 then
        let t := t ++ [(Event.aquire c, w)]
        let w := w.aquire env c
        let res := env.getPointerToGlobalIfAvailable w.engine f
        let t := t ++ [(Event.getPointerToGlobalIfAvailable f res, w)]
        if res = 0 then
          let t := t ++ [(Event.compile c meth, w)]
          match env.compile c meth w.engine with
          | none => ⟨Outcome.raised, w, t⟩
          | some e =>
            let w := { w with engine := e }
            let t := t ++ [(Event.getPointerToGlobal f, w)]
            match env.getPointerToGlobal f w.engine with
            | none => ⟨Outcome.raised, w, t⟩
            | some (res, e) =>
              let w := { w with engine := e }
              let code := codeOf env.ptrBytes res
              let t := t ++ [(Event.setCode meth code, w)]
              let w := { w with code := Function.update w.code meth code }
              let t := t ++ [(Event.setDefinition (w.code meth) meth, w)]
              let w := { w with definition := Function.update w.definition (w.code meth) meth }
              releaseAndResolve env meth w t
        else releaseAndResolve env meth w t
      else ⟨Outcome.returned false, w, t⟩

/-- The events of a run, without the states. -/
def Run.events {E : Type} (r : Run E) : List Event := r.trace.map Prod.fst

/-- The number of locks a sequence of events leaves acquired: acquisitions
less releases. -/
def lockBalance : List Event → Int
  | [] => 0
  | Event.aquire _ :: rest => lockBalance rest + 1
  | Event.release _ :: rest => lockBalance rest - 1
  | _ :: rest => lockBalance rest

/-- An engine for examples.  Its state is the address the engine has for
function 1, `0` for none.  Function 1 is the body-less function of method
record 100 of class 7, function 2 has a body, no other function has a record.
The compiler service succeeds or not as `compileOk` says and the code gets the
address `addr`; a caller that waits for the lock finds the address `late`
there if none was there before. -/
def sampleEnv (compileOk : Bool) (addr late : Nat) : Env Nat where
  empty := fun _ F => decide (F ≠ 2)
  functions := fun F => if F = 1 then 100 else 0
  methPtr := fun _ => 1
  classDef := fun _ => 7
  ptrBytes := 8
  getPointerToGlobalIfAvailable := fun e _ => e
  aquire := fun _ e => if e = 0 then late else e
  compile := fun _ _ e => if compileOk then some e else none
  getPointerToGlobal := fun _ e => some (if e = 0 then (addr, addr) else (e, e))
  resolveStatic := fun _ e => e

/-- A state for examples: the engine state `e`, no lock held, no code and no
back-link set. -/
def sampleWorld (e : Nat) : World Nat := ⟨e, fun _ => 0, fun _ => 0, fun _ => 0⟩

/-! ## Concurrent calls of `materializeFunction`

Several threads call `materializeFunction(F, ErrInfo)` for one function `F`.
Each statement of the function that reads or writes shared state is one step
of a thread; a schedule names the thread that takes the next step. -/

/-- The place of a thread in `materializeFunction`. -/
inductive Pc
  /-- Before line 27 -/
  | entry
  /-- Before the unlocked query of line 33 -/
  | check
  /-- Before `aquire()`, line 36 -/
  | aquire
  /-- Before the query under the lock, line 37 -/
  | recheck
  /-- Before `CLIJit::compile`, line 40 -/
  | compile
  /-- Before `getPointerToGlobal`, line 41 -/
  | getPointer
  /-- Before the two assignments of lines 42 and 43, with the address `res` -/
  | install (res : Nat)
  /-- Before `release()`, line 45, with the address the thread has seen -/
  | release (res : Nat)
  /-- Before `resolveStatic(true)`, line 46 -/
  | resolveStatic (res : Nat)
  /-- Returned `false`, with the native address the call has seen, if any -/
  | done (res : Option Nat)
  /-- Left by a failure of the compiler service -/
  | failed
deriving DecidableEq, Repr

/-- The state shared by the threads, and the place of each. -/
structure Sys (E : Type) where
  engine : E
  /-- The thread that holds the lock of a class, if one does -/
  owner : Nat → Option Nat
  code : Nat → Nat
  definition : Nat → Nat
  /-- The number of invocations of `CLIJit::compile` so far -/
  compiles : Nat
  pc : Nat → Pc

/-- Thread `t` is moved to the place `p`. -/
def Sys.goto {E : Type} (s : Sys E) (t : Nat) (p : Pc) : Sys E :=
  { s with pc := Function.update s.pc t p }

/-- One step of thread `t` in `materializeFunction(F, ErrInfo)`.  The lock of a
class is exclusive: `aquire()` goes through when no thread owns the lock, and
a thread that waits for a lock another thread owns stays where it is, as does
a thread that has left the function. -/
def step {E : Type} (env : Env E) (F : Nat) (t : Nat) (s : Sys E) : Sys E :=
  let meth := env.functions F
  let f := env.methPtr meth
  let c := env.classDef meth
  match s.pc t with
  | Pc.entry =>
    if !env.empty s.engine F then s.goto t (Pc.done none)
    else if meth = 0 then s.goto t (Pc.done none)
    else s.goto t Pc.check
  | Pc.check =>
    let res := env.getPointerToGlobalIfAvailable s.engine f
    if res = 0 then s.goto t Pc.aquire else s.goto t (Pc.done (some res))
  | Pc.aquire =>
    match s.owner c with
    | none => { s with owner := Function.update s.owner c (some t) }.goto t Pc.recheck
    | some _ => s
  | Pc.recheck =>
    let res := env.getPointerToGlobalIfAvailable s.engine f
    if res = 0 then s.goto t Pc.compile else s.goto t (Pc.release res)
  | Pc.compile =>
    match env.compile c meth s.engine with
    | none => { s with compiles := s.compiles + 1 }.goto t Pc.failed
    | some e => { s with compiles := s.compiles + 1, engine := e }.goto t Pc.getPointer
  | Pc.getPointer =>
    match env.getPointerToGlobal f s.engine with
    | none => s.goto t Pc.failed
    | some (res, e) => { s with engine := e }.goto t (Pc.install res)
  | Pc.install res =>
    let code := codeOf env.ptrBytes res
    { s with code := Function.update s.code meth code,
             definition := Function.update s.definition code meth }.goto t (Pc.release res)
  | Pc.release res =>
    { s with owner := Function.update s.owner c none }.goto t (Pc.resolveStatic res)
  | Pc.resolveStatic res =>
    { s with engine := env.resolveStatic c s.engine }.goto t (Pc.done (some res))
  | Pc.done _ => s
  | Pc.failed => s

/-- The state after the threads have taken steps in the order of the
schedule. -/
def runSchedule {E : Type} (env : Env E) (F : Nat) : List Nat → Sys E → Sys E
  | [], s => s
  | t :: rest, s => runSchedule env F rest (step env F t s)

/-- The state in which every thread is about to call `materializeFunction`:
no thread is in the function, nothing has been compiled. -/
def Sys.init {E : Type} (e : E) (owner : Nat → Option Nat) (code definition : Nat → Nat) :
    Sys E :=
  ⟨e, owner, code, definition, 0, fun _ => Pc.entry⟩

/-- Whether a thread at this place holds the lock of the class: it has
passed `aquire()` and not `release()`. -/
def Pc.inLock : Pc → Bool
  | Pc.recheck => true
  | Pc.compile => true
  | Pc.getPointer => true
  | Pc.install _ => true
  | Pc.release _ => true
  | Pc.failed => true
  | _ => false

/-- The native address a thread at this place has seen for the method, if it
has seen one. -/
def Pc.seen : Pc → Option Nat
  | Pc.install res => some res
  | Pc.release res => some res
  | Pc.resolveStatic res => some res
  | Pc.done res => res
  | _ => none

/-- What holds of every state the threads can reach: the threads between
`aquire()` and `release()` own the lock; an address a thread has seen is not
null and is the one the engine has for the function; a thread about to compile
finds no address and no earlier compilation; the compiler has been invoked at
most once, and if it has, the address is there or the compiling thread is
still at work or has failed. -/
structure Inv {E : Type} (env : Env E) (F : Nat) (s : Sys E) : Prop where
  owns : ∀ t, (s.pc t).inLock = true →
    s.owner (env.classDef (env.functions F)) = some t
  seen : ∀ t a, (s.pc t).seen = some a →
    a ≠ 0 ∧ env.getPointerToGlobalIfAvailable s.engine (env.methPtr (env.functions F)) = a
  first : ∀ t, s.pc t = Pc.compile →
    env.getPointerToGlobalIfAvailable s.engine (env.methPtr (env.functions F)) = 0 ∧
    s.compiles = 0
  second : ∀ t, s.pc t = Pc.getPointer → s.compiles = 1
  once : s.compiles = 0 ∨
    (s.compiles = 1 ∧
      (env.getPointerToGlobalIfAvailable s.engine (env.methPtr (env.functions F)) ≠ 0 ∨
        ∃ t, s.pc t = Pc.getPointer ∨ s.pc t = Pc.failed))

/-- The engine keeps the address it resolves for the function of `F`:
`getPointerToGlobal` returns a non-null address, the one the engine has
already if it has one, and the engine has it afterwards; and static
initialization does not change an address the engine has. -/
structure KeepsAddress {E : Type} (env : Env E) (F : Nat) : Prop where
  cached : ∀ e res e2, env.getPointerToGlobal (env.methPtr (env.functions F)) e
      = some (res, e2) →
    res ≠ 0 ∧ env.getPointerToGlobalIfAvailable e2 (env.methPtr (env.functions F)) = res
  same : ∀ e res e2, env.getPointerToGlobal (env.methPtr (env.functions F)) e
      = some (res, e2) →
    env.getPointerToGlobalIfAvailable e (env.methPtr (env.functions F)) ≠ 0 →
    res = env.getPointerToGlobalIfAvailable e (env.methPtr (env.functions F))
  stable : ∀ e, env.getPointerToGlobalIfAvailable e (env.methPtr (env.functions F)) ≠ 0 →
    env.getPointerToGlobalIfAvailable
        (env.resolveStatic (env.classDef (env.functions F)) e)
        (env.methPtr (env.functions F))
      = env.getPointerToGlobalIfAvailable e (env.methPtr (env.functions F))

/-! ## Notions the statements about the tables use -/

/-- Lexicographic comparison of two byte sequences: the first position where
they differ decides, and a sequence that is a proper prefix of the other is
the smaller one. -/
def lexLess : List Nat → List Nat → Bool
  | [], [] => false
  | [], _ :: _ => true
  | _ :: _, [] => false
  | x :: xs, y :: ys => if x < y then true else if y < x then false else lexLess xs ys

/-- The elements of a symbol are values of type `uint16`. -/
def UTF8.WellFormed (s : UTF8) : Prop := ∀ e ∈ s.elements, e < 65536

/-- An operation that puts entries into a table: `hash(k, c)` or
`lookupOrCreate(k, vm, func)`. -/
inductive TableOp (K C W Vm : Type)
  | hash (k : K) (c : C)
  | lookupOrCreate (k : K) (vm : Vm) (func : K → Vm → W → C × W)

/-- The table after one operation. -/
def LockedMap.apply {K C W Vm : Type} (lt : K → K → Bool) :
    TableOp K C W Vm → LockedMap K C W → LockedMap K C W
  | TableOp.hash k c, s => LockedMap.hash lt k c s
  | TableOp.lookupOrCreate k vm func, s => (LockedMap.lookupOrCreate lt k vm func s).2

/-- The table after a sequence of operations, the first of the list first. -/
def LockedMap.applyAll {K C W Vm : Type} (lt : K → K → Bool) :
    List (TableOp K C W Vm) → LockedMap K C W → LockedMap K C W
  | [], s => s
  | op :: rest, s => LockedMap.applyAll lt rest (LockedMap.apply lt op s)

/-- A `StringMap` seen as the `LockedMap<const UTF8*, JavaString*, ltutf8>`
with the same lock, map, creator state and invocation count. -/
def StringMap.toLockedMap {W : Type} (s : StringMap W) : LockedMap UTF8 Nat W :=
  ⟨s.locked, s.map, s.world, s.created⟩

/-- A `TypeMap` seen as the `LockedMap<const UTF8*, Typedef*, ltutf8>` with the
same lock and map; a `TypeMap` has no creator function. -/
def TypeMap.toLockedMap (s : TypeMap) : LockedMap UTF8 Nat Unit :=
  ⟨s.locked, s.map, (), 0⟩

/-! ## `J3Signature::operator new` -/

/-- The size that `J3Signature::operator new(unused, allocator, n)` asks the
allocator for: `sizeof(J3Signature) + (n - 1) * sizeof(J3Type*)`, every
operation in `size_t` arithmetic, which is arithmetic modulo `2 ^ 64`.  The two
sizes are those of the target. -/
def J3Signature.operatorNewSize (sizeofJ3Signature sizeofPtr n : Nat) : Nat :=
  (sizeofJ3Signature + ((n + 2 ^ 64 - 1) % 2 ^ 64 * sizeofPtr) % 2 ^ 64) % 2 ^ 64

/-! ## Lemmas on the ordered map -/

section MapLemmas

variable {K C : Type}

theorem find_cons_lt (lt : K → K → Bool) (k : K) (p : K × C) (rest : List (K × C))
    (h : lt p.1 k = true) : find lt k (p :: rest) = find lt k rest := by
  simp [find, lowerBound, h]

theorem find_insert_self (lt : K → K → Bool) (hirr : ∀ a, lt a a = false) (k : K) (c : C)
    (m : List (K × C)) :
    find lt k (insert lt k c m) = some ((find lt k m).getD (k, c)) := by
  induction m with
  | nil => simp [insert, find, lowerBound, hirr]
  | cons p rest ih =>
    by_cases h1 : lt p.1 k = true
    · rw [find_cons_lt lt k p rest h1]
      simp only [insert, h1, if_true]
      rw [find_cons_lt lt k p _ h1, ih]
    · by_cases h2 : lt k p.1 = true
      · simp [insert, find, lowerBound, h1, h2, hirr]
      · simp [insert, find, lowerBound, h1, h2]

theorem find_upperBound (lt : K → K → Bool) (hasym : ∀ a b, lt a b = true → lt b a = false)
    (k : K) (m : List (K × C)) : find lt k (upperBound lt k m) = none := by
  induction m with
  | nil => simp [upperBound, find, lowerBound]
  | cons p rest ih =>
    by_cases h : lt k p.1 = true
    · simp [upperBound, find, lowerBound, h, hasym k p.1 h]
    · simpa [upperBound, h] using ih

theorem find_erase_self (lt : K → K → Bool) (hasym : ∀ a b, lt a b = true → lt b a = false)
    (k : K) (m : List (K × C)) : find lt k (erase lt k m) = none := by
  induction m with
  | nil => simp [erase, find, lowerBound]
  | cons p rest ih =>
    by_cases h1 : lt p.1 k = true
    · simp only [erase, h1, if_true]
      rw [find_cons_lt lt k p _ h1, ih]
    · have := find_upperBound lt hasym k (p :: rest)
      simpa [erase, h1] using this

theorem mem_insert (lt : K → K → Bool) (k : K) (c : C) (m : List (K × C)) (q : K × C)
    (hq : q ∈ insert lt k c m) : q = (k, c) ∨ q ∈ m := by
  induction m with
  | nil => simpa [insert] using hq
  | cons p rest ih =>
    by_cases h1 : lt p.1 k = true
    · simp only [insert, h1, if_true, List.mem_cons] at hq
      rcases hq with g | g
      · exact Or.inr (by simp [g])
      · rcases ih g with h | h
        · exact Or.inl h
        · exact Or.inr (List.mem_cons_of_mem _ h)
    · by_cases h2 : lt k p.1 = true
      · simp only [insert, h1, h2, if_true, if_false, Bool.false_eq_true, List.mem_cons] at hq
        rcases hq with g | g | g
        · exact Or.inl g
        · exact Or.inr (by simp [g])
        · exact Or.inr (List.mem_cons_of_mem _ g)
      · simp only [insert, h1, h2, if_false, Bool.false_eq_true] at hq
        exact Or.inr hq

/-- The invariant of the map, its entries in strictly increasing key order, is
kept by `insert`. -/
theorem insert_ordered (lt : K → K → Bool) (hsw : StrictWeak lt) (k : K) (c : C)
    (m : List (K × C)) (h : Ordered lt m) : Ordered lt (insert lt k c m) := by
  induction m with
  | nil => simp [insert, Ordered]
  | cons p rest ih =>
    have hp := List.pairwise_cons.mp h
    by_cases h1 : lt p.1 k = true
    · simp only [insert, h1, if_true]
      refine List.pairwise_cons.mpr ⟨?_, ih hp.2⟩
      intro q hq
      rcases mem_insert lt k c rest q hq with hq | hq
      · rw [hq]
        exact h1
      · exact hp.1 q hq
    · by_cases h2 : lt k p.1 = true
      · simp only [insert, h1, h2, if_true, if_false, Bool.false_eq_true]
        refine List.pairwise_cons.mpr ⟨?_, h⟩
        intro q hq
        rcases List.mem_cons.mp hq with hq | hq
        · rw [hq]
          exact h2
        · exact hsw.trans k p.1 q.1 h2 (hp.1 q hq)
      · simpa only [insert, h1, h2, if_false, Bool.false_eq_true] using h

theorem upperBound_sublist (lt : K → K → Bool) (k : K) (m : List (K × C)) :
    (upperBound lt k m).Sublist m := by
  induction m with
  | nil => simp [upperBound]
  | cons p rest ih =>
    by_cases h : lt k p.1 = true
    · simp [upperBound, h]
    · simp only [upperBound, h, if_false, Bool.false_eq_true]
      exact ih.trans (List.sublist_cons_self p rest)

theorem erase_sublist (lt : K → K → Bool) (k : K) (m : List (K × C)) :
    (erase lt k m).Sublist m := by
  induction m with
  | nil => simp [erase]
  | cons p rest ih =>
    by_cases h : lt p.1 k = true
    · simp only [erase, h, if_true]
      exact ih.cons₂ p
    · simp only [erase, h, if_false, Bool.false_eq_true]
      exact upperBound_sublist lt k (p :: rest)

/-- The invariant of the map is kept by `erase`. -/
theorem erase_ordered (lt : K → K → Bool) (k : K) (m : List (K × C)) (h : Ordered lt m) :
    Ordered lt (erase lt k m) :=
  List.Pairwise.sublist (erase_sublist lt k m) h

theorem memcmp_self (xs : List Nat) (n : Nat) : memcmp xs xs n = 0 := by
  induction xs generalizing n with
  | nil => cases n <;> simp [memcmp]
  | cons x rest ih => cases n <;> simp [memcmp, ih]

theorem ltutf8_irrefl (multipleVM bigEndian : Bool) (s : UTF8) :
    ltutf8 multipleVM bigEndian s s = false := by
  cases multipleVM <;> simp [ltutf8, memcmp_self]

end MapLemmas

/-! ## The tables: lookup, hash, remove, lookupOrCreate -/

section Tables

variable {K C W Vm : Type}

theorem lookupOrCreate_absent (lt : K → K → Bool) (V : K) (vm : Vm) (func : K → Vm → W → C × W)
    (s : LockedMap K C W) (h : find lt V s.map = none) :
    LockedMap.lookupOrCreate lt V vm func s =
      ((func V vm s.world).1,
       ⟨false, insert lt V (func V vm s.world).1 s.map, (func V vm s.world).2,
        s.created + 1⟩) := by
  simp [LockedMap.lookupOrCreate, LockedMap.lock, LockedMap.unlock, h]

theorem lookupOrCreate_present (lt : K → K → Bool) (V : K) (vm : Vm)
    (func : K → Vm → W → C × W) (s : LockedMap K C W) (I : K × C)
    (h : find lt V s.map = some I) :
    LockedMap.lookupOrCreate lt V vm func s = (I.2, ⟨false, s.map, s.world, s.created⟩) := by
  simp [LockedMap.lookupOrCreate, LockedMap.lock, LockedMap.unlock, h]

theorem stringMap_lookupOrCreate_absent (mvm be : Bool) (V : UTF8) (vm : Vm)
    (func : UTF8 → Vm → W → Nat × W) (s : StringMap W)
    (h : find (ltutf8 mvm be) V s.map = none) :
    StringMap.lookupOrCreate mvm be V vm func s =
      ((func V vm s.world).1,
       ⟨false, insert (ltutf8 mvm be) V (func V vm s.world).1 s.map, (func V vm s.world).2,
        s.created + 1⟩) := by
  simp [StringMap.lookupOrCreate, h]

theorem stringMap_lookupOrCreate_present (mvm be : Bool) (V : UTF8) (vm : Vm)
    (func : UTF8 → Vm → W → Nat × W) (s : StringMap W) (I : UTF8 × Nat)
    (h : find (ltutf8 mvm be) V s.map = some I) :
    StringMap.lookupOrCreate mvm be V vm func s = (I.2, ⟨false, s.map, s.world, s.created⟩) := by
  simp [StringMap.lookupOrCreate, h]

/-- C1, as the code has it: after `hash(K, V)`, `lookup(K)` returns `V` when `K`
had no entry, and returns the value `K` had before when it had one, the
insertion being dropped; so for `LockedMap` under an irreflexive comparator,
and for `TypeMap` in both builds. -/
theorem hash_then_lookup (lt : K → K → Bool) [Zero C] (hirr : ∀ a, lt a a = false)
    (s : LockedMap K C W) (k : K) (c : C) (mvm be : Bool) (ts : TypeMap) (u : UTF8) (d : Nat) :
    (LockedMap.lookup lt k (LockedMap.hash lt k c s)).1 =
        (match find lt k s.map with
         | some I => I.2
         | none => c) ∧
    (TypeMap.lookup mvm be u (TypeMap.hash mvm be u d ts)).1 =
        (match find (ltutf8 mvm be) u ts.map with
         | some I => I.2
         | none => d) := by
  constructor
  · simp only [LockedMap.lookup, LockedMap.hash, LockedMap.lock, LockedMap.unlock,
      find_insert_self lt hirr]
    cases find lt k s.map <;> rfl
  · simp only [TypeMap.lookup, TypeMap.hash,
      find_insert_self (ltutf8 mvm be) (ltutf8_irrefl mvm be)]
    cases find (ltutf8 mvm be) u ts.map <;> rfl

/-- C1, an instance: on pointer keys, a new key reads back the hashed value,
and a key that has the value 10 still has it after `hash` with 20. -/
theorem hash_then_lookup_witness :
    (∀ a, ptrLess a a = false) ∧
    (LockedMap.lookup ptrLess 3 (LockedMap.hash ptrLess 3 20
      (⟨false, [(1, 10)], (), 0⟩ : LockedMap Nat Nat Unit))).1 = 20 ∧
    (LockedMap.lookup ptrLess 1 (LockedMap.hash ptrLess 1 20
      (⟨false, [(1, 10)], (), 0⟩ : LockedMap Nat Nat Unit))).1 = 10 :=
  ⟨fun a => by simp [ptrLess],
   (hash_then_lookup ptrLess (fun a => by simp [ptrLess])
      (⟨false, [(1, 10)], (), 0⟩ : LockedMap Nat Nat Unit) 3 20 false false ⟨false, []⟩
      ⟨0, []⟩ 0).1.trans (by decide),
   by decide⟩

/-- C1 as stated fails: a table in which key 1 has the value 10 returns 10,
not 20, for `lookup(1)` after `hash(1, 20)`; likewise for `TypeMap`. -/
theorem hash_then_lookup_counterexample :
    ¬ (∀ (s : LockedMap Nat Nat Unit) (k c : Nat),
        (LockedMap.lookup ptrLess k (LockedMap.hash ptrLess k c s)).1 = c) ∧
    ¬ (∀ (ts : TypeMap) (u : UTF8) (d : Nat),
        (TypeMap.lookup false false u (TypeMap.hash false false u d ts)).1 = d) := by
  constructor
  · intro h
    exact absurd (h ⟨false, [(1, 10)], (), 0⟩ 1 20) (by decide)
  · intro h
    exact absurd (h ⟨false, [(⟨1, [97]⟩, 10)]⟩ ⟨1, [97]⟩ 20) (by decide)

/-- C2: after `remove(K)`, `lookup(K)` returns the null value 0 and `K` has no
entry, whatever the table held before, and a following `lookupOrCreate(K, vm,
func)` invokes `func` once more and returns what it made. -/
theorem remove_then_lookup (lt : K → K → Bool) [Zero C]
    (hasym : ∀ a b, lt a b = true → lt b a = false)
    (s : LockedMap K C W) (k : K) (vm : Vm) (func : K → Vm → W → C × W) :
    (LockedMap.lookup lt k (LockedMap.remove lt k s)).1 = 0 ∧
    find lt k (LockedMap.remove lt k s).map = none ∧
    (LockedMap.lookupOrCreate lt k vm func (LockedMap.remove lt k s)).2.created
      = s.created + 1 ∧
    (LockedMap.lookupOrCreate lt k vm func (LockedMap.remove lt k s)).1
      = (func k vm s.world).1 ∧
    (LockedMap.lookupOrCreate lt k vm func (LockedMap.remove lt k s)).2.world
      = (func k vm s.world).2 := by
  have h : find lt k (LockedMap.remove lt k s).map = none := by
    simp [LockedMap.remove, LockedMap.lock, LockedMap.unlock, find_erase_self lt hasym]
  refine ⟨?_, h, ?_, ?_, ?_⟩
  · simp only [LockedMap.lookup, LockedMap.lock, LockedMap.unlock]
    rw [h]
  · rw [lookupOrCreate_absent lt k vm func _ h]
    simp [LockedMap.remove, LockedMap.lock, LockedMap.unlock]
  · rw [lookupOrCreate_absent lt k vm func _ h]
    simp [LockedMap.remove, LockedMap.lock, LockedMap.unlock]
  · rw [lookupOrCreate_absent lt k vm func _ h]
    simp [LockedMap.remove, LockedMap.lock, LockedMap.unlock]

/-- C2, an instance: key 2 is removed from a table of three entries; the
creator, which numbers what it makes, is invoked a second time. -/
theorem remove_then_lookup_witness :
    (∀ a b, ptrLess a b = true → ptrLess b a = false) ∧
    (LockedMap.lookup ptrLess 2 (LockedMap.remove ptrLess 2
      (⟨false, [(1, 10), (2, 20), (3, 30)], 7, 1⟩ : LockedMap Nat Nat Nat))).1 = 0 ∧
    (LockedMap.lookupOrCreate ptrLess 2 () (fun k _ w => (100 * k + w, w + 1))
      (LockedMap.remove ptrLess 2
        (⟨false, [(1, 10), (2, 20), (3, 30)], 7, 1⟩ : LockedMap Nat Nat Nat))).2.created = 2 :=
  have hasym : ∀ a b, ptrLess a b = true → ptrLess b a = false := fun a b h => by
    simp [ptrLess] at h ⊢; omega
  ⟨hasym,
   (remove_then_lookup ptrLess hasym
      (⟨false, [(1, 10), (2, 20), (3, 30)], 7, 1⟩ : LockedMap Nat Nat Nat) 2 ()
      (fun k _ w => (100 * k + w, w + 1))).1,
   by decide⟩

/-- C3: `lookupOrCreate(K, vm, f)` on a key with an entry returns the value of
the entry, does not invoke `f`, and leaves map, creator state and invocation
count as they were; on a key without an entry it invokes `f(K, vm)` once,
inserts the pair of `K` and the value made, returns that value, and a
following `lookup(K)` returns it too. -/
theorem lookupOrCreate_spec (lt : K → K → Bool) [Zero C] (hirr : ∀ a, lt a a = false)
    (s : LockedMap K C W) (k : K) (vm : Vm) (func : K → Vm → W → C × W) :
    (∀ I, find lt k s.map = some I →
      (LockedMap.lookupOrCreate lt k vm func s).1 = I.2 ∧
      (LockedMap.lookupOrCreate lt k vm func s).2.map = s.map ∧
      (LockedMap.lookupOrCreate lt k vm func s).2.world = s.world ∧
      (LockedMap.lookupOrCreate lt k vm func s).2.created = s.created) ∧
    (find lt k s.map = none →
      (LockedMap.lookupOrCreate lt k vm func s).1 = (func k vm s.world).1 ∧
      (LockedMap.lookupOrCreate lt k vm func s).2.map
        = insert lt k (func k vm s.world).1 s.map ∧
      (LockedMap.lookupOrCreate lt k vm func s).2.world = (func k vm s.world).2 ∧
      (LockedMap.lookupOrCreate lt k vm func s).2.created = s.created + 1 ∧
      find lt k (LockedMap.lookupOrCreate lt k vm func s).2.map
        = some (k, (func k vm s.world).1) ∧
      (LockedMap.lookup lt k (LockedMap.lookupOrCreate lt k vm func s).2).1
        = (func k vm s.world).1) := by
  constructor
  · intro I h
    rw [lookupOrCreate_present lt k vm func s I h]
    exact ⟨rfl, rfl, rfl, rfl⟩
  · intro h
    rw [lookupOrCreate_absent lt k vm func s h]
    have hf := find_insert_self lt hirr k (func k vm s.world).1 s.map
    rw [h] at hf
    simp only [Option.getD_none] at hf
    refine ⟨rfl, rfl, rfl, rfl, hf, ?_⟩
    simp only [LockedMap.lookup, LockedMap.lock, LockedMap.unlock]
    rw [hf]

/-- C3, an instance: key 2 is created in a table that holds key 1, and key 1 is
found without a creation. -/
theorem lookupOrCreate_spec_witness :
    (∀ a, ptrLess a a = false) ∧
    (LockedMap.lookup ptrLess 2 (LockedMap.lookupOrCreate ptrLess 2 ()
      (fun k _ w => (100 * k + w, w + 1))
      (⟨false, [(1, 10)], 7, 0⟩ : LockedMap Nat Nat Nat)).2).1 = 207 ∧
    (LockedMap.lookupOrCreate ptrLess 1 () (fun k _ w => (100 * k + w, w + 1))
      (⟨false, [(1, 10)], 7, 0⟩ : LockedMap Nat Nat Nat)).2.created = 0 :=
  ⟨fun a => by simp [ptrLess],
   ((lookupOrCreate_spec ptrLess (fun a => by simp [ptrLess])
      (⟨false, [(1, 10)], 7, 0⟩ : LockedMap Nat Nat Nat) 2 ()
      (fun k _ w => (100 * k + w, w + 1))).2 (by decide)).2.2.2.2.2.trans (by decide),
   ((lookupOrCreate_spec ptrLess (fun a => by simp [ptrLess])
      (⟨false, [(1, 10)], 7, 0⟩ : LockedMap Nat Nat Nat) 1 ()
      (fun k _ w => (100 * k + w, w + 1))).1 (1, 10) (by decide)).2.2.2⟩

end Tables

/-! ## `materializeFunction`: one call -/

section Materialize

variable {E : Type}

theorem lockBalance_append (xs ys : List Event) :
    lockBalance (xs ++ ys) = lockBalance xs + lockBalance ys := by
  induction xs with
  | nil => simp [lockBalance]
  | cons x rest ih => cases x <;> simp [lockBalance, ih] <;> ring

/-- Case analysis on a call of `materializeFunction`: its seven paths, each
with the run it produces. -/
theorem materializeFunction_cases (env : Env E) (F : Nat) (w : World E) (P : Run E → Prop)
    (hbody : env.empty w.engine F = false → P ⟨Outcome.returned false, w, []⟩)
    (hnone : env.empty w.engine F = true → env.functions F = 0 →
      P ⟨Outcome.returned false, w, [(Event.lookup F, w)]⟩)
    (hfast : ∀ m f res, m = env.functions F → f = env.methPtr m →
      res = env.getPointerToGlobalIfAvailable w.engine f →
      env.empty w.engine F = true → m ≠ 0 → res ≠ 0 →
      P ⟨Outcome.returned false, w,
        [(Event.lookup F, w), (Event.getPointerToGlobalIfAvailable f res, w)]⟩)
    (hrecheck : ∀ m f c w1 res, m = env.functions F → f = env.methPtr m →
      c = env.classDef m →
      w1 = { w with held := Function.update w.held c (w.held c + 1),
                    engine := env.aquire c w.engine } →
      res = env.getPointerToGlobalIfAvailable w1.engine f →
      env.empty w.engine F = true → m ≠ 0 →
      env.getPointerToGlobalIfAvailable w.engine f = 0 → res ≠ 0 →
      P (releaseAndResolve env m w1
        [(Event.lookup F, w), (Event.getPointerToGlobalIfAvailable f 0, w),
         (Event.aquire c, w), (Event.getPointerToGlobalIfAvailable f res, w1)]))
    (hcompile : ∀ m f c w1, m = env.functions F → f = env.methPtr m →
      c = env.classDef m →
      w1 = { w with held := Function.update w.held c (w.held c + 1),
                    engine := env.aquire c w.engine } →
      env.empty w.engine F = true → m ≠ 0 →
      env.getPointerToGlobalIfAvailable w.engine f = 0 →
      env.getPointerToGlobalIfAvailable w1.engine f = 0 →
      env.compile c m w1.engine = none →
      P ⟨Outcome.raised, w1,
        [(Event.lookup F, w), (Event.getPointerToGlobalIfAvailable f 0, w),
         (Event.aquire c, w), (Event.getPointerToGlobalIfAvailable f 0, w1),
         (Event.compile c m, w1)]⟩)
    (hresolve : ∀ m f c w1 e w2, m = env.functions F → f = env.methPtr m →
      c = env.classDef m →
      w1 = { w with held := Function.update w.held c (w.held c + 1),
                    engine := env.aquire c w.engine } →
      w2 = { w1 with engine := e } →
      env.empty w.engine F = true → m ≠ 0 →
      env.getPointerToGlobalIfAvailable w.engine f = 0 →
      env.getPointerToGlobalIfAvailable w1.engine f = 0 →
      env.compile c m w1.engine = some e →
      env.getPointerToGlobal f e = none →
      P ⟨Outcome.raised, w2,
        [(Event.lookup F, w), (Event.getPointerToGlobalIfAvailable f 0, w),
         (Event.aquire c, w), (Event.getPointerToGlobalIfAvailable f 0, w1),
         (Event.compile c m, w1), (Event.getPointerToGlobal f, w2)]⟩)
    (hinstall : ∀ m f c w1 e w2 res e2 w3 w4 w5, m = env.functions F → f = env.methPtr m →
      c = env.classDef m →
      w1 = { w with held := Function.update w.held c (w.held c + 1),
                    engine := env.aquire c w.engine } →
      w2 = { w1 with engine := e } →
      w3 = { w2 with engine := e2 } →
      w4 = { w3 with code := Function.update w3.code m (codeOf env.ptrBytes res) } →
      w5 = { w4 with definition :=
               Function.update w4.definition (codeOf env.ptrBytes res) m } →
      env.empty w.engine F = true → m ≠ 0 →
      env.getPointerToGlobalIfAvailable w.engine f = 0 →
      env.getPointerToGlobalIfAvailable w1.engine f = 0 →
      env.compile c m w1.engine = some e →
      env.getPointerToGlobal f e = some (res, e2) →
      P (releaseAndResolve env m w5
        [(Event.lookup F, w), (Event.getPointerToGlobalIfAvailable f 0, w),
         (Event.aquire c, w), (Event.getPointerToGlobalIfAvailable f 0, w1),
         (Event.compile c m, w1), (Event.getPointerToGlobal f, w2),
         (Event.setCode m (codeOf env.ptrBytes res), w3),
         (Event.setDefinition (codeOf env.ptrBytes res) m, w4)])) :
    P (materializeFunction env F w) := by
  by_cases h1 : env.empty w.engine F = true
  swap
  · have h1f : env.empty w.engine F = false := by simpa using h1
    have := hbody h1f
    simpa [materializeFunction, World.aquire, h1f] using this
  by_cases h2 : env.functions F = 0
  · have := hnone h1 h2
    simpa [materializeFunction, World.aquire, h1, h2] using this
  by_cases h3 : env.getPointerToGlobalIfAvailable w.engine (env.methPtr (env.functions F)) = 0
  swap
  · have := hfast _ _ _ rfl rfl rfl h1 h2 h3
    simpa [materializeFunction, World.aquire, h1, h2, h3] using this
  by_cases h4 : env.getPointerToGlobalIfAvailable
      (env.aquire (env.classDef (env.functions F)) w.engine)
      (env.methPtr (env.functions F)) = 0
  swap
  · have := hrecheck _ _ _ _ _ rfl rfl rfl rfl rfl h1 h2 h3 h4
    simpa [materializeFunction, World.aquire, h1, h2, h3, h4] using this
  cases h5 : env.compile (env.classDef (env.functions F)) (env.functions F)
      (env.aquire (env.classDef (env.functions F)) w.engine) with
  | none =>
    have := hcompile _ _ _ _ rfl rfl rfl rfl h1 h2 h3 h4 h5
    simpa [materializeFunction, World.aquire, h1, h2, h3, h4, h5] using this
  | some e =>
    cases h6 : env.getPointerToGlobal (env.methPtr (env.functions F)) e with
    | none =>
      have := hresolve _ _ _ _ e _ rfl rfl rfl rfl rfl h1 h2 h3 h4 h5 h6
      simpa [materializeFunction, World.aquire, h1, h2, h3, h4, h5, h6] using this
    | some p =>
      obtain ⟨res, e2⟩ := p
      have := hinstall _ _ _ _ e _ res e2 _ _ _ rfl rfl rfl rfl rfl rfl rfl rfl h1 h2 h3 h4
        h5 h6
      simpa [materializeFunction, World.aquire, h1, h2, h3, h4, h5, h6] using this

/-- C6, as the code has it: the boolean does not tell whether the call
materialized a body.  A call that returns returns `false`, also the call that
invoked the compiler and installed a code address; the other calls are left
by a failure of the compiler service and have installed nothing. -/
theorem materializeFunction_returns_false (env : Env E) (F : Nat) (w : World E) :
    (materializeFunction env F w).outcome = Outcome.returned false ∨
    ((materializeFunction env F w).outcome = Outcome.raised ∧
      ∀ m code, Event.setCode m code ∉ (materializeFunction env F w).events) := by
  refine materializeFunction_cases env F w
    (fun r => r.outcome = Outcome.returned false ∨
      (r.outcome = Outcome.raised ∧ ∀ m code, Event.setCode m code ∉ r.events))
    ?_ ?_ ?_ ?_ ?_ ?_ ?_
  all_goals intros
  all_goals simp [releaseAndResolve, World.release, Run.events]

/-- C6 as stated fails: the call for function 1 of the example engine invokes
the compiler and installs the code address 4088, and returns `false`. -/
theorem materializeFunction_returns_false_counterexample :
    ¬ (∀ (env : Env Nat) (F : Nat) (w : World Nat),
        (materializeFunction env F w).outcome = Outcome.returned true ↔
        (Event.compile (env.classDef (env.functions F)) (env.functions F)
            ∈ (materializeFunction env F w).events ∧
         ∃ code, Event.setCode (env.functions F) code
            ∈ (materializeFunction env F w).events)) := by
  intro h
  have h1 := (h (sampleEnv true 4096 0) 1 (sampleWorld 0)).2 ⟨by decide, 4088, by decide⟩
  revert h1
  decide

/-- C7: when `F` has a body the call does nothing: it has no event (no lookup
in the function table, no query of the address, no lock, no compilation, no
static initialization), leaves the state as it is and returns `false`.  When
`F` has no body and no method record, the lookup in the table is the only
event, the state is left as it is and `false` is returned. -/
theorem materializeFunction_nothing_to_do (env : Env E) (F : Nat) (w : World E) :
    (env.empty w.engine F = false →
      (materializeFunction env F w).outcome = Outcome.returned false ∧
      (materializeFunction env F w).world = w ∧
      (materializeFunction env F w).trace = []) ∧
    (env.empty w.engine F = true → env.functions F = 0 →
      (materializeFunction env F w).outcome = Outcome.returned false ∧
      (materializeFunction env F w).world = w ∧
      (materializeFunction env F w).events = [Event.lookup F]) := by
  constructor
  · intro h
    simp [materializeFunction, h]
  · intro h h0
    simp [materializeFunction, Run.events, h, h0]

/-- C7, an instance: function 2 of the example engine has a body, function 3
has neither a body nor a record. -/
theorem materializeFunction_nothing_to_do_witness :
    (sampleEnv true 4096 0).empty 0 2 = false ∧
    (materializeFunction (sampleEnv true 4096 0) 2 (sampleWorld 0)).trace.length = 0 ∧
    (sampleEnv true 4096 0).empty 0 3 = true ∧ (sampleEnv true 4096 0).functions 3 = 0 ∧
    (materializeFunction (sampleEnv true 4096 0) 3 (sampleWorld 0)).events
      = [Event.lookup 3] :=
  ⟨by decide,
   by
     rw [((materializeFunction_nothing_to_do (sampleEnv true 4096 0) 2
       (sampleWorld 0)).1 (by decide)).2.2]
     rfl,
   by decide, by decide,
   ((materializeFunction_nothing_to_do (sampleEnv true 4096 0) 3 (sampleWorld 0)).2
     (by decide) (by decide)).2.2⟩

/-- C8, as the code has it: a call that returns has released the lock it
acquired: the hold counts are those of the entry and the events balance.  A
call left by a failure of `CLIJit::compile` or of the address resolution has
acquired the lock of the class and not released it: nothing between `aquire`
and `release` catches the failure. -/
theorem materializeFunction_lock (env : Env E) (F : Nat) (w : World E) :
    ((materializeFunction env F w).outcome = Outcome.returned false ∧
      (materializeFunction env F w).world.held = w.held ∧
      lockBalance (materializeFunction env F w).events = 0) ∨
    ((materializeFunction env F w).outcome = Outcome.raised ∧
      (materializeFunction env F w).world.held
        = Function.update w.held (env.classDef (env.functions F))
            (w.held (env.classDef (env.functions F)) + 1) ∧
      lockBalance (materializeFunction env F w).events = 1) := by
  refine materializeFunction_cases env F w
    (fun r => (r.outcome = Outcome.returned false ∧ r.world.held = w.held ∧
        lockBalance r.events = 0) ∨
      (r.outcome = Outcome.raised ∧
        r.world.held = Function.update w.held (env.classDef (env.functions F))
            (w.held (env.classDef (env.functions F)) + 1) ∧
        lockBalance r.events = 1))
    ?_ ?_ ?_ ?_ ?_ ?_ ?_
  all_goals intros
  all_goals subst_vars
  all_goals simp [releaseAndResolve, World.release, Run.events, lockBalance]

/-- C8 as stated fails: with a compiler service that fails, the call for
function 1 enters with the lock of class 7 free and leaves with it held. -/
theorem materializeFunction_lock_counterexample :
    ¬ (∀ (env : Env Nat) (F : Nat) (w : World Nat) (c : Nat),
        0 < (materializeFunction env F w).world.held c ↔ 0 < w.held c) := by
  intro h
  have h1 := (h (sampleEnv false 4096 0) 1 (sampleWorld 0) 7).1 (by decide)
  revert h1
  decide

/-- C9: a call of `materializeFunction` for the method record `M` of `F`
either sets both the code address of `M` and the back-link from that code to
`M`, and then returns, or writes no code field and no back-link.  A call left
by a failure of the compiler service has written neither, and so has a call
that finds an address at the unlocked query or at the query under the lock. -/
theorem materializeFunction_no_partial_install (env : Env E) (F : Nat) (w : World E) :
    ((∃ res,
        (materializeFunction env F w).world.code
          = Function.update w.code (env.functions F) (codeOf env.ptrBytes res) ∧
        (materializeFunction env F w).world.definition
          = Function.update w.definition (codeOf env.ptrBytes res) (env.functions F) ∧
        Event.setCode (env.functions F) (codeOf env.ptrBytes res)
          ∈ (materializeFunction env F w).events ∧
        Event.setDefinition (codeOf env.ptrBytes res) (env.functions F)
          ∈ (materializeFunction env F w).events ∧
        (materializeFunction env F w).outcome = Outcome.returned false) ∨
      ((materializeFunction env F w).world.code = w.code ∧
        (materializeFunction env F w).world.definition = w.definition ∧
        (∀ m code, Event.setCode m code ∉ (materializeFunction env F w).events) ∧
        (∀ code m, Event.setDefinition code m ∉ (materializeFunction env F w).events))) ∧
    ((materializeFunction env F w).outcome = Outcome.raised →
      (materializeFunction env F w).world.code = w.code ∧
      (materializeFunction env F w).world.definition = w.definition) ∧
    (env.getPointerToGlobalIfAvailable w.engine (env.methPtr (env.functions F)) ≠ 0 →
      (materializeFunction env F w).world.code = w.code ∧
      (materializeFunction env F w).world.definition = w.definition) ∧
    (env.getPointerToGlobalIfAvailable
        (env.aquire (env.classDef (env.functions F)) w.engine)
        (env.methPtr (env.functions F)) ≠ 0 →
      (materializeFunction env F w).world.code = w.code ∧
      (materializeFunction env F w).world.definition = w.definition) := by
  refine materializeFunction_cases env F w
    (fun r =>
      ((∃ res,
          r.world.code = Function.update w.code (env.functions F) (codeOf env.ptrBytes res) ∧
          r.world.definition
            = Function.update w.definition (codeOf env.ptrBytes res) (env.functions F) ∧
          Event.setCode (env.functions F) (codeOf env.ptrBytes res) ∈ r.events ∧
          Event.setDefinition (codeOf env.ptrBytes res) (env.functions F) ∈ r.events ∧
          r.outcome = Outcome.returned false) ∨
        (r.world.code = w.code ∧ r.world.definition = w.definition ∧
          (∀ m code, Event.setCode m code ∉ r.events) ∧
          (∀ code m, Event.setDefinition code m ∉ r.events))) ∧
      (r.outcome = Outcome.raised →
        r.world.code = w.code ∧ r.world.definition = w.definition) ∧
      (env.getPointerToGlobalIfAvailable w.engine (env.methPtr (env.functions F)) ≠ 0 →
        r.world.code = w.code ∧ r.world.definition = w.definition) ∧
      (env.getPointerToGlobalIfAvailable
          (env.aquire (env.classDef (env.functions F)) w.engine)
          (env.methPtr (env.functions F)) ≠ 0 →
        r.world.code = w.code ∧ r.world.definition = w.definition))
    ?_ ?_ ?_ ?_ ?_ ?_ ?_
  · intro _
    simp [Run.events]
  · intro _ _
    simp [Run.events]
  · intros
    subst_vars
    simp [Run.events]
  · intros
    subst_vars
    simp [releaseAndResolve, World.release, Run.events]
  · intros
    subst_vars
    simp [Run.events]
  · intros
    subst_vars
    simp [Run.events]
  · intro m f c w1 e w2 res e2 w3 w4 w5 hm hf hc hw1 hw2 hw3 hw4 hw5 _ _ h3 h4 _ _
    subst hm hf hc hw1 hw2 hw3 hw4 hw5
    refine ⟨Or.inl ⟨res, ?_⟩, ?_, ?_, ?_⟩
    · simp [releaseAndResolve, World.release, Run.events]
    · simp [releaseAndResolve, World.release]
    · intro h
      exact absurd h3 h
    · intro h
      exact absurd h4 h

/-- C9, an instance on the example engine: a failing compiler service, an
address found at the unlocked query, and an address found under the lock each
leave the code field of method record 100 as it was. -/
theorem materializeFunction_no_partial_install_witness :
    (materializeFunction (sampleEnv false 4096 0) 1 (sampleWorld 0)).outcome
      = Outcome.raised ∧
    (materializeFunction (sampleEnv false 4096 0) 1 (sampleWorld 0)).world.code 100 = 0 ∧
    (sampleEnv true 4096 0).getPointerToGlobalIfAvailable (sampleWorld 8192).engine 1 ≠ 0 ∧
    (materializeFunction (sampleEnv true 4096 0) 1 (sampleWorld 8192)).world.code 100 = 0 ∧
    (sampleEnv true 4096 8192).getPointerToGlobalIfAvailable
      ((sampleEnv true 4096 8192).aquire 7 (sampleWorld 0).engine) 1 ≠ 0 ∧
    (materializeFunction (sampleEnv true 4096 8192) 1 (sampleWorld 0)).world.code 100 = 0 :=
  ⟨by decide,
   congrFun ((materializeFunction_no_partial_install (sampleEnv false 4096 0) 1
     (sampleWorld 0)).2.1 (by decide)).1 100,
   by decide,
   congrFun ((materializeFunction_no_partial_install (sampleEnv true 4096 0) 1
     (sampleWorld 8192)).2.2.1 (by decide)).1 100,
   by decide,
   congrFun ((materializeFunction_no_partial_install (sampleEnv true 4096 8192) 1
     (sampleWorld 0)).2.2.2 (by decide)).1 100⟩

/-- C10: in a run of `materializeFunction`, static initialization is requested
for the class of the method only, as the last event and right after the
release of the lock the call acquired: the hold counts at the request are
those of the entry.  At the request either the query under the lock has found
an address and nothing was compiled, or the compiler service and the address
resolution have succeeded and code address and back-link are set; with an
engine that keeps the address it resolves, the address of the method is
available at the request.  A call left by a failure of the compiler service
requests no static initialization. -/
theorem resolveStatic_only_after_release (env : Env E) (F : Nat) (w : World E) :
    (∀ c snap, (Event.resolveStatic c, snap) ∈ (materializeFunction env F w).trace →
      c = env.classDef (env.functions F) ∧
      snap.held = w.held ∧
      (∃ pre rel, (materializeFunction env F w).trace
          = pre ++ [(Event.release c, rel), (Event.resolveStatic c, snap)] ∧
        Event.aquire c ∈ pre.map Prod.fst ∧
        lockBalance (pre.map Prod.fst) = 1 ∧
        (∀ c2, Event.release c2 ∉ pre.map Prod.fst) ∧
        (∀ c2, Event.resolveStatic c2 ∉ pre.map Prod.fst)) ∧
      (materializeFunction env F w).outcome = Outcome.returned false ∧
      ((env.getPointerToGlobalIfAvailable snap.engine (env.methPtr (env.functions F)) ≠ 0 ∧
          Event.compile c (env.functions F) ∉ (materializeFunction env F w).events) ∨
        (∃ e res,
          env.compile c (env.functions F) (env.aquire c w.engine) = some e ∧
          env.getPointerToGlobal (env.methPtr (env.functions F)) e
            = some (res, snap.engine) ∧
          snap.code (env.functions F) = codeOf env.ptrBytes res ∧
          snap.definition (codeOf env.ptrBytes res) = env.functions F)) ∧
      ((∀ e res e2, env.getPointerToGlobal (env.methPtr (env.functions F)) e
            = some (res, e2) →
          res ≠ 0 ∧
          env.getPointerToGlobalIfAvailable e2 (env.methPtr (env.functions F)) = res) →
        env.getPointerToGlobalIfAvailable snap.engine (env.methPtr (env.functions F))
          ≠ 0)) ∧
    ((materializeFunction env F w).outcome = Outcome.raised →
      ∀ c snap, (Event.resolveStatic c, snap) ∉ (materializeFunction env F w).trace) := by
  refine materializeFunction_cases env F w
    (fun r =>
      (∀ c snap, (Event.resolveStatic c, snap) ∈ r.trace →
        c = env.classDef (env.functions F) ∧
        snap.held = w.held ∧
        (∃ pre rel, r.trace = pre ++ [(Event.release c, rel), (Event.resolveStatic c, snap)] ∧
          Event.aquire c ∈ pre.map Prod.fst ∧
          lockBalance (pre.map Prod.fst) = 1 ∧
          (∀ c2, Event.release c2 ∉ pre.map Prod.fst) ∧
          (∀ c2, Event.resolveStatic c2 ∉ pre.map Prod.fst)) ∧
        r.outcome = Outcome.returned false ∧
        ((env.getPointerToGlobalIfAvailable snap.engine (env.methPtr (env.functions F)) ≠ 0 ∧
            Event.compile c (env.functions F) ∉ r.events) ∨
          (∃ e res,
            env.compile c (env.functions F) (env.aquire c w.engine) = some e ∧
            env.getPointerToGlobal (env.methPtr (env.functions F)) e
              = some (res, snap.engine) ∧
            snap.code (env.functions F) = codeOf env.ptrBytes res ∧
            snap.definition (codeOf env.ptrBytes res) = env.functions F)) ∧
        ((∀ e res e2, env.getPointerToGlobal (env.methPtr (env.functions F)) e
              = some (res, e2) →
            res ≠ 0 ∧
            env.getPointerToGlobalIfAvailable e2 (env.methPtr (env.functions F)) = res) →
          env.getPointerToGlobalIfAvailable snap.engine (env.methPtr (env.functions F))
            ≠ 0)) ∧
      (r.outcome = Outcome.raised → ∀ c snap, (Event.resolveStatic c, snap) ∉ r.trace))
    ?_ ?_ ?_ ?_ ?_ ?_ ?_
  · intro _
    simp
  · intro _ _
    simp
  · intros
    subst_vars
    simp
  · intro m f c w1 res hm hf hc hw1 hres _ _ _ h4
    subst hm hf hc hw1 hres
    refine ⟨?_, by simp [releaseAndResolve, World.release]⟩
    intro c snap hmem
    simp only [releaseAndResolve, List.mem_append, List.mem_cons, List.not_mem_nil,
      Prod.mk.injEq, reduceCtorEq, false_and, or_false, false_or,
      Event.resolveStatic.injEq] at hmem
    obtain ⟨rfl, rfl⟩ := hmem
    refine ⟨rfl, by simp [World.release],
      ⟨_, _, rfl, by simp, by simp [lockBalance], by simp, by simp⟩,
      rfl, Or.inl ⟨h4, by simp [releaseAndResolve, World.release, Run.events]⟩, fun _ => h4⟩
  · intros
    subst_vars
    simp
  · intros
    subst_vars
    simp
  · intro m f c w1 e w2 res e2 w3 w4 w5 hm hf hc hw1 hw2 hw3 hw4 hw5 _ _ _ _ h5 h6
    subst hm hf hc hw1 hw2 hw3 hw4 hw5
    refine ⟨?_, by simp [releaseAndResolve, World.release]⟩
    intro c snap hmem
    simp only [releaseAndResolve, List.mem_append, List.mem_cons, List.not_mem_nil,
      Prod.mk.injEq, reduceCtorEq, false_and, or_false, false_or,
      Event.resolveStatic.injEq] at hmem
    obtain ⟨rfl, rfl⟩ := hmem
    refine ⟨rfl, by simp [World.release],
      ⟨_, _, rfl, by simp, by simp [lockBalance], by simp, by simp⟩,
      rfl, Or.inr ⟨e, res, h5, h6, by simp [World.release], by simp [World.release]⟩,
      fun h => ?_⟩
    have h7 := h e res e2 h6
    simpa [World.release, h7.2] using h7.1

/-- C10, an instance on the example engine: the call for function 1 compiles,
and its request of static initialization for class 7 finds no lock held and
the address of the function available; with a failing compiler service no
request is made. -/
theorem resolveStatic_only_after_release_witness :
    (∃ snap, (Event.resolveStatic 7, snap)
        ∈ (materializeFunction (sampleEnv true 4096 0) 1 (sampleWorld 0)).trace ∧
      snap.held = (sampleWorld 0).held ∧
      (sampleEnv true 4096 0).getPointerToGlobalIfAvailable snap.engine 1 ≠ 0) ∧
    (materializeFunction (sampleEnv false 4096 0) 1 (sampleWorld 0)).outcome
      = Outcome.raised ∧
    (Event.resolveStatic 7, sampleWorld 0)
      ∉ (materializeFunction (sampleEnv false 4096 0) 1 (sampleWorld 0)).trace := by
  have hlen : 9 < (materializeFunction (sampleEnv true 4096 0) 1 (sampleWorld 0)).trace.length := by
    decide
  have hmem : (Event.resolveStatic 7,
      ((materializeFunction (sampleEnv true 4096 0) 1 (sampleWorld 0)).trace.get ⟨9, hlen⟩).2)
      ∈ (materializeFunction (sampleEnv true 4096 0) 1 (sampleWorld 0)).trace :=
    List.get_mem _ 9 hlen
  have h := (resolveStatic_only_after_release (sampleEnv true 4096 0) 1 (sampleWorld 0)).1
    7 _ hmem
  have hcache : ∀ e res e2, (sampleEnv true 4096 0).getPointerToGlobal
      ((sampleEnv true 4096 0).methPtr ((sampleEnv true 4096 0).functions 1)) e
        = some (res, e2) →
      res ≠ 0 ∧ (sampleEnv true 4096 0).getPointerToGlobalIfAvailable e2
        ((sampleEnv true 4096 0).methPtr ((sampleEnv true 4096 0).functions 1)) = res := by
    intro e res e2 he
    simp only [sampleEnv, Option.some.injEq] at he ⊢
    split_ifs at he with h0
    · simp only [Prod.mk.injEq] at he
      omega
    · simp only [Prod.mk.injEq] at he
      omega
  exact ⟨⟨_, hmem, h.2.1, h.2.2.2.2.2 hcache⟩, by decide,
    (resolveStatic_only_after_release (sampleEnv false 4096 0) 1 (sampleWorld 0)).2
      (by decide) 7 (sampleWorld 0)⟩

end Materialize

/-! ## `materializeFunction`: concurrent calls -/

section Concurrent

variable {E : Type}

theorem goto_pc (s : Sys E) (t : Nat) (p : Pc) (u : Nat) :
    (s.goto t p).pc u = if u = t then p else s.pc u := by
  simp [Sys.goto, Function.update_apply]

theorem inLock_unique (env : Env E) (F : Nat) (s : Sys E) (h : Inv env F s) (t u : Nat)
    (ht : (s.pc t).inLock = true) (hu : (s.pc u).inLock = true) : u = t := by
  have h1 := h.owns t ht
  have h2 := h.owns u hu
  rw [h1] at h2
  exact (Option.some.inj h2).symm

/-- A step that moves thread `t` and leaves the engine, the locks and the
number of compilations as they are keeps the invariant, if the new place is
no hold of the lock the thread had not, sees no address but the one of the
engine, and is not a place of the compiling thread. -/
theorem inv_goto (env : Env E) (F : Nat) (s : Sys E) (h : Inv env F s) (t : Nat) (p : Pc)
    (code definition : Nat → Nat)
    (hlock : p.inLock = true → (s.pc t).inLock = true)
    (hseen : ∀ a, p.seen = some a → a ≠ 0 ∧
      env.getPointerToGlobalIfAvailable s.engine (env.methPtr (env.functions F)) = a)
    (hfirst : p = Pc.compile →
      env.getPointerToGlobalIfAvailable s.engine (env.methPtr (env.functions F)) = 0 ∧
      s.compiles = 0)
    (hsecond : p ≠ Pc.getPointer)
    (hleave : s.pc t = Pc.getPointer ∨ s.pc t = Pc.failed → p = Pc.failed) :
    Inv env F ({ s with code := code, definition := definition }.goto t p) := by
  refine ⟨?_, ?_, ?_, ?_, ?_⟩
  · intro u hu
    rw [goto_pc] at hu
    by_cases hut : u = t
    · subst hut
      simp only [if_true] at hu
      exact h.owns u (hlock hu)
    · simp only [hut, if_false] at hu
      exact h.owns u hu
  · intro u a hu
    rw [goto_pc] at hu
    by_cases hut : u = t
    · simp only [hut, if_true] at hu
      exact hseen a hu
    · simp only [hut, if_false] at hu
      exact h.seen u a hu
  · intro u hu
    rw [goto_pc] at hu
    by_cases hut : u = t
    · simp only [hut, if_true] at hu
      exact hfirst hu
    · simp only [hut, if_false] at hu
      exact h.first u hu
  · intro u hu
    rw [goto_pc] at hu
    by_cases hut : u = t
    · simp only [hut, if_true] at hu
      exact absurd hu hsecond
    · simp only [hut, if_false] at hu
      exact h.second u hu
  · rcases h.once with h0 | ⟨h1, h2⟩
    · exact Or.inl h0
    · refine Or.inr ⟨h1, ?_⟩
      rcases h2 with h2 | ⟨u, hu⟩
      · exact Or.inl h2
      · refine Or.inr ⟨u, ?_⟩
        rw [goto_pc]
        by_cases hut : u = t
        · subst hut
          simp only [if_true]
          exact Or.inr (hleave hu)
        · simpa only [hut, if_false] using hu

theorem inv_step_simple (env : Env E) (F : Nat) (s : Sys E) (h : Inv env F s) (t : Nat)
    (hpc : s.pc t = Pc.entry ∨ s.pc t = Pc.check ∨ s.pc t = Pc.recheck ∨
      (∃ res, s.pc t = Pc.install res) ∨ (∃ res, s.pc t = Pc.done res) ∨ s.pc t = Pc.failed) :
    Inv env F (step env F t s) := by
  rcases hpc with hpc | hpc | hpc | ⟨res, hpc⟩ | ⟨res, hpc⟩ | hpc
  · simp only [step, hpc]
    split_ifs
    · exact inv_goto env F s h t _ s.code s.definition (by simp [Pc.inLock])
        (by simp [Pc.seen]) (by simp) (by simp) (by simp [hpc])
    · exact inv_goto env F s h t _ s.code s.definition (by simp [Pc.inLock])
        (by simp [Pc.seen]) (by simp) (by simp) (by simp [hpc])
    · exact inv_goto env F s h t _ s.code s.definition (by simp [Pc.inLock])
        (by simp [Pc.seen]) (by simp) (by simp) (by simp [hpc])
  · simp only [step, hpc]
    split_ifs with h0
    · exact inv_goto env F s h t _ s.code s.definition (by simp [Pc.inLock])
        (by simp [Pc.seen]) (by simp) (by simp) (by simp [hpc])
    · refine inv_goto env F s h t _ s.code s.definition (by simp [Pc.inLock])
        ?_ (by simp) (by simp) (by simp [hpc])
      intro a ha
      simp only [Pc.seen, Option.some.injEq] at ha
      subst ha
      exact ⟨h0, rfl⟩
  · simp only [step, hpc]
    split_ifs with h0
    · refine inv_goto env F s h t _ s.code s.definition (by simp [Pc.inLock, hpc])
        (by simp [Pc.seen]) ?_ (by simp) (by simp [hpc])
      intro _
      refine ⟨h0, ?_⟩
      rcases h.once with hc | ⟨_, hq | ⟨u, hu⟩⟩
      · exact hc
      · exact absurd h0 hq
      · have hut := inLock_unique env F s h t u (by simp [hpc, Pc.inLock])
          (by rcases hu with hu | hu <;> simp [hu, Pc.inLock])
        subst hut
        rw [hpc] at hu
        simp at hu
    · refine inv_goto env F s h t _ s.code s.definition (by simp [Pc.inLock, hpc])
        ?_ (by simp) (by simp) (by simp [hpc])
      intro a ha
      simp only [Pc.seen, Option.some.injEq] at ha
      subst ha
      exact ⟨h0, rfl⟩
  · simp only [step, hpc]
    refine inv_goto env F s h t _ _ _ (by simp [Pc.inLock, hpc]) ?_ (by simp) (by simp)
      (by simp [hpc])
    intro a ha
    simp only [Pc.seen, Option.some.injEq] at ha
    subst ha
    exact h.seen t res (by simp [hpc, Pc.seen])
  · simpa only [step, hpc] using h
  · simpa only [step, hpc] using h

theorem inv_step_aquire (env : Env E) (F : Nat) (s : Sys E) (h : Inv env F s) (t : Nat)
    (hpc : s.pc t = Pc.aquire) : Inv env F (step env F t s) := by
  simp only [step, hpc]
  cases ho : s.owner (env.classDef (env.functions F)) with
  | some _ => exact h
  | none =>
    have hfree : ∀ u, (s.pc u).inLock = false := by
      intro u
      cases hu : (s.pc u).inLock with
      | false => rfl
      | true =>
        have := h.owns u hu
        rw [ho] at this
        exact absurd this (by simp)
    simp only []
    refine ⟨?_, ?_, ?_, ?_, ?_⟩
    · intro u hu
      rw [goto_pc] at hu
      by_cases hut : u = t
      · simp [Sys.goto, hut]
      · simp only [hut, if_false] at hu
        rw [hfree u] at hu
        exact absurd hu (by simp)
    · intro u a hu
      rw [goto_pc] at hu
      by_cases hut : u = t
      · simp [hut, Pc.seen] at hu
      · simp only [hut, if_false] at hu
        exact h.seen u a hu
    · intro u hu
      rw [goto_pc] at hu
      by_cases hut : u = t
      · simp [hut] at hu
      · simp only [hut, if_false] at hu
        exact h.first u hu
    · intro u hu
      rw [goto_pc] at hu
      by_cases hut : u = t
      · simp [hut] at hu
      · simp only [hut, if_false] at hu
        exact h.second u hu
    · rcases h.once with h0 | ⟨h1, h2⟩
      · exact Or.inl h0
      · refine Or.inr ⟨h1, ?_⟩
        rcases h2 with h2 | ⟨u, hu⟩
        · exact Or.inl h2
        · have := hfree u
          rcases hu with hu | hu <;> simp [hu, Pc.inLock] at this

theorem inv_step_compile (env : Env E) (F : Nat) (s : Sys E) (h : Inv env F s) (t : Nat)
    (hpc : s.pc t = Pc.compile) : Inv env F (step env F t s) := by
  have hq := (h.first t hpc).1
  have hc := (h.first t hpc).2
  have hnoseen : ∀ u a, (s.pc u).seen = some a → False := by
    intro u a hu
    have := h.seen u a hu
    rw [hq] at this
    exact this.1 this.2.symm
  have hone : ∀ u, (s.pc u).inLock = true → u = t := fun u hu =>
    inLock_unique env F s h t u (by simp [hpc, Pc.inLock]) hu
  simp only [step, hpc]
  cases hcomp : env.compile (env.classDef (env.functions F)) (env.functions F) s.engine with
  | none =>
    simp only []
    refine ⟨?_, ?_, ?_, ?_, ?_⟩
    · intro u hu
      rw [goto_pc] at hu
      by_cases hut : u = t
      · subst hut
        exact h.owns u (by simp [hpc, Pc.inLock])
      · simp only [hut, if_false] at hu
        exact h.owns u hu
    · intro u a hu
      rw [goto_pc] at hu
      by_cases hut : u = t
      · simp [hut, Pc.seen] at hu
      · simp only [hut, if_false] at hu
        exact (hnoseen u a hu).elim
    · intro u hu
      rw [goto_pc] at hu
      by_cases hut : u = t
      · simp [hut] at hu
      · simp only [hut, if_false] at hu
        exact absurd (hone u (by simp [hu, Pc.inLock])) hut
    · intro u hu
      rw [goto_pc] at hu
      by_cases hut : u = t
      · simp [hut] at hu
      · simp only [hut, if_false] at hu
        exact absurd (hone u (by simp [hu, Pc.inLock])) hut
    · refine Or.inr ⟨by simp [Sys.goto, hc], Or.inr ⟨t, ?_⟩⟩
      simp [goto_pc]
  | some e =>
    simp only []
    refine ⟨?_, ?_, ?_, ?_, ?_⟩
    · intro u hu
      rw [goto_pc] at hu
      by_cases hut : u = t
      · subst hut
        exact h.owns u (by simp [hpc, Pc.inLock])
      · simp only [hut, if_false] at hu
        exact h.owns u hu
    · intro u a hu
      rw [goto_pc] at hu
      by_cases hut : u = t
      · simp [hut, Pc.seen] at hu
      · simp only [hut, if_false] at hu
        exact (hnoseen u a hu).elim
    · intro u hu
      rw [goto_pc] at hu
      by_cases hut : u = t
      · simp [hut] at hu
      · simp only [hut, if_false] at hu
        exact absurd (hone u (by simp [hu, Pc.inLock])) hut
    · intro u _
      simp [Sys.goto, hc]
    · refine Or.inr ⟨by simp [Sys.goto, hc], Or.inr ⟨t, ?_⟩⟩
      simp [goto_pc]

theorem inv_step_getPointer (env : Env E) (F : Nat) (hk : KeepsAddress env F) (s : Sys E)
    (h : Inv env F s) (t : Nat) (hpc : s.pc t = Pc.getPointer) :
    Inv env F (step env F t s) := by
  have hone : ∀ u, (s.pc u).inLock = true → u = t := fun u hu =>
    inLock_unique env F s h t u (by simp [hpc, Pc.inLock]) hu
  simp only [step, hpc]
  cases hget : env.getPointerToGlobal (env.methPtr (env.functions F)) s.engine with
  | none =>
    exact inv_goto env F s h t _ s.code s.definition (by simp [Pc.inLock, hpc])
      (by simp [Pc.seen]) (by simp) (by simp) (by simp)
  | some p =>
    obtain ⟨res, e2⟩ := p
    have hres := hk.cached s.engine res e2 hget
    simp only []
    refine ⟨?_, ?_, ?_, ?_, ?_⟩
    · intro u hu
      rw [goto_pc] at hu
      by_cases hut : u = t
      · subst hut
        exact h.owns u (by simp [hpc, Pc.inLock])
      · simp only [hut, if_false] at hu
        exact h.owns u hu
    · intro u a hu
      rw [goto_pc] at hu
      by_cases hut : u = t
      · simp only [hut, if_true, Pc.seen, Option.some.injEq] at hu
        subst hu
        exact hres
      · simp only [hut, if_false] at hu
        have hua := h.seen u a hu
        have := hk.same s.engine res e2 hget (by rw [hua.2]; exact hua.1)
        rw [hua.2] at this
        subst this
        exact hres
    · intro u hu
      rw [goto_pc] at hu
      by_cases hut : u = t
      · simp [hut] at hu
      · simp only [hut, if_false] at hu
        exact absurd (hone u (by simp [hu, Pc.inLock])) hut
    · intro u hu
      rw [goto_pc] at hu
      by_cases hut : u = t
      · simp [hut] at hu
      · simp only [hut, if_false] at hu
        exact absurd (hone u (by simp [hu, Pc.inLock])) hut
    · refine Or.inr ⟨h.second t hpc, Or.inl ?_⟩
      show env.getPointerToGlobalIfAvailable e2 (env.methPtr (env.functions F)) ≠ 0
      rw [hres.2]
      exact hres.1

theorem inv_step_release (env : Env E) (F : Nat) (s : Sys E) (h : Inv env F s) (t : Nat)
    (res : Nat) (hpc : s.pc t = Pc.release res) : Inv env F (step env F t s) := by
  have hone : ∀ u, (s.pc u).inLock = true → u = t := fun u hu =>
    inLock_unique env F s h t u (by simp [hpc, Pc.inLock]) hu
  simp only [step, hpc]
  refine ⟨?_, ?_, ?_, ?_, ?_⟩
  · intro u hu
    rw [goto_pc] at hu
    by_cases hut : u = t
    · simp [hut, Pc.inLock] at hu
    · simp only [hut, if_false] at hu
      exact absurd (hone u hu) hut
  · intro u a hu
    rw [goto_pc] at hu
    by_cases hut : u = t
    · simp only [hut, if_true, Pc.seen, Option.some.injEq] at hu
      subst hu
      exact h.seen t res (by simp [hpc, Pc.seen])
    · simp only [hut, if_false] at hu
      exact h.seen u a hu
  · intro u hu
    rw [goto_pc] at hu
    by_cases hut : u = t
    · simp [hut] at hu
    · simp only [hut, if_false] at hu
      exact h.first u hu
  · intro u hu
    rw [goto_pc] at hu
    by_cases hut : u = t
    · simp [hut] at hu
    · simp only [hut, if_false] at hu
      exact h.second u hu
  · rcases h.once with h0 | ⟨h1, h2⟩
    · exact Or.inl h0
    · refine Or.inr ⟨h1, Or.inl ?_⟩
      have := h.seen t res (by simp [hpc, Pc.seen])
      show env.getPointerToGlobalIfAvailable s.engine (env.methPtr (env.functions F)) ≠ 0
      rw [this.2]
      exact this.1

theorem inv_step_resolveStatic (env : Env E) (F : Nat) (hk : KeepsAddress env F) (s : Sys E)
    (h : Inv env F s) (t : Nat) (res : Nat) (hpc : s.pc t = Pc.resolveStatic res) :
    Inv env F (step env F t s) := by
  have hres := h.seen t res (by simp [hpc, Pc.seen])
  have hq : env.getPointerToGlobalIfAvailable s.engine (env.methPtr (env.functions F)) ≠ 0 := by
    rw [hres.2]
    exact hres.1
  have hst := hk.stable s.engine hq
  simp only [step, hpc]
  refine ⟨?_, ?_, ?_, ?_, ?_⟩
  · intro u hu
    rw [goto_pc] at hu
    by_cases hut : u = t
    · simp [hut, Pc.inLock] at hu
    · simp only [hut, if_false] at hu
      exact h.owns u hu
  · intro u a hu
    rw [goto_pc] at hu
    show a ≠ 0 ∧ env.getPointerToGlobalIfAvailable
      (env.resolveStatic (env.classDef (env.functions F)) s.engine)
      (env.methPtr (env.functions F)) = a
    rw [hst]
    by_cases hut : u = t
    · simp only [hut, if_true, Pc.seen, Option.some.injEq] at hu
      subst hu
      exact hres
    · simp only [hut, if_false] at hu
      exact h.seen u a hu
  · intro u hu
    rw [goto_pc] at hu
    by_cases hut : u = t
    · simp [hut] at hu
    · simp only [hut, if_false] at hu
      exact absurd (h.first u hu).1 hq
  · intro u hu
    rw [goto_pc] at hu
    by_cases hut : u = t
    · simp [hut] at hu
    · simp only [hut, if_false] at hu
      exact h.second u hu
  · rcases h.once with h0 | ⟨h1, _⟩
    · exact Or.inl h0
    · refine Or.inr ⟨h1, Or.inl ?_⟩
      show env.getPointerToGlobalIfAvailable
        (env.resolveStatic (env.classDef (env.functions F)) s.engine)
        (env.methPtr (env.functions F)) ≠ 0
      rw [hst]
      exact hq

theorem inv_step (env : Env E) (F : Nat) (hk : KeepsAddress env F) (s : Sys E)
    (h : Inv env F s) (t : Nat) : Inv env F (step env F t s) := by
  cases hpc : s.pc t with
  | entry => exact inv_step_simple env F s h t (by simp [hpc])
  | check => exact inv_step_simple env F s h t (by simp [hpc])
  | aquire => exact inv_step_aquire env F s h t hpc
  | recheck => exact inv_step_simple env F s h t (by simp [hpc])
  | compile => exact inv_step_compile env F s h t hpc
  | getPointer => exact inv_step_getPointer env F hk s h t hpc
  | install res => exact inv_step_simple env F s h t (by simp [hpc])
  | release res => exact inv_step_release env F s h t res hpc
  | resolveStatic res => exact inv_step_resolveStatic env F hk s h t res hpc
  | done res => exact inv_step_simple env F s h t (by simp [hpc])
  | failed => exact inv_step_simple env F s h t (by simp [hpc])

theorem inv_init (env : Env E) (F : Nat) (e : E) (owner : Nat → Option Nat)
    (code definition : Nat → Nat) : Inv env F (Sys.init e owner code definition) := by
  refine ⟨?_, ?_, ?_, ?_, ?_⟩ <;> simp [Sys.init, Pc.inLock, Pc.seen]

theorem inv_runSchedule (env : Env E) (F : Nat) (hk : KeepsAddress env F) (sched : List Nat)
    (s : Sys E) (h : Inv env F s) : Inv env F (runSchedule env F sched s) := by
  induction sched generalizing s with
  | nil => exact h
  | cons t rest ih => exact ih (step env F t s) (inv_step env F hk s h t)

theorem keepsAddress_sampleEnv : KeepsAddress (sampleEnv true 4096 0) 1 := by
  refine ⟨?_, ?_, ?_⟩
  · intro e res e2 he
    simp only [sampleEnv, Option.some.injEq] at he ⊢
    split_ifs at he with h0
    · simp only [Prod.mk.injEq] at he
      omega
    · simp only [Prod.mk.injEq] at he
      omega
  · intro e res e2 he hne
    simp only [sampleEnv, Option.some.injEq] at he hne ⊢
    rw [if_neg hne] at he
    simp only [Prod.mk.injEq] at he
    omega
  · intro e _
    rfl

/-- C5: threads call `materializeFunction` for one function `F`, their steps
interleaved in any order, from a state in which none has entered the function
and nothing has been compiled; the lock of the class is exclusive and the
engine keeps the address it resolves.  In every state the threads reach,
`CLIJit::compile` has been invoked at most once, and all the calls that have
returned with an address saw the same one: a non-null address, the one the
engine has for the function. -/
theorem materialize_at_most_once (env : Env E) (F : Nat) (hk : KeepsAddress env F) (e : E)
    (owner : Nat → Option Nat) (code definition : Nat → Nat) (sched : List Nat) :
    (runSchedule env F sched (Sys.init e owner code definition)).compiles ≤ 1 ∧
    ∀ t1 t2 a1 a2,
      (runSchedule env F sched (Sys.init e owner code definition)).pc t1
        = Pc.done (some a1) →
      (runSchedule env F sched (Sys.init e owner code definition)).pc t2
        = Pc.done (some a2) →
      a1 = a2 ∧ a1 ≠ 0 ∧
      env.getPointerToGlobalIfAvailable
        (runSchedule env F sched (Sys.init e owner code definition)).engine
        (env.methPtr (env.functions F)) = a1 := by
  have h := inv_runSchedule env F hk sched _ (inv_init env F e owner code definition)
  constructor
  · rcases h.once with h0 | ⟨h1, _⟩ <;> omega
  · intro t1 t2 a1 a2 h1 h2
    have s1 := h.seen t1 a1 (by simp [h1, Pc.seen])
    have s2 := h.seen t2 a2 (by simp [h2, Pc.seen])
    exact ⟨s1.2.symm.trans s2.2, s1.1, s1.2⟩

/-- C5, an instance: two threads race for function 1 of the example engine.
Both pass the unlocked query, thread 0 gets the lock and compiles while thread
1 waits, thread 1 finds the address under the lock: one compilation, and both
calls return having seen the address 4096. -/
theorem materialize_at_most_once_witness :
    KeepsAddress (sampleEnv true 4096 0) 1 ∧
    (runSchedule (sampleEnv true 4096 0) 1 [0, 1, 0, 1, 0, 1, 0, 0, 0, 0, 0, 0, 1, 1, 1, 1]
      (Sys.init 0 (fun _ => none) (fun _ => 0) (fun _ => 0))).compiles = 1 ∧
    (runSchedule (sampleEnv true 4096 0) 1 [0, 1, 0, 1, 0, 1, 0, 0, 0, 0, 0, 0, 1, 1, 1, 1]
      (Sys.init 0 (fun _ => none) (fun _ => 0) (fun _ => 0))).pc 0 = Pc.done (some 4096) ∧
    (runSchedule (sampleEnv true 4096 0) 1 [0, 1, 0, 1, 0, 1, 0, 0, 0, 0, 0, 0, 1, 1, 1, 1]
      (Sys.init 0 (fun _ => none) (fun _ => 0) (fun _ => 0))).pc 1 = Pc.done (some 4096) ∧
    (runSchedule (sampleEnv true 4096 0) 1 [0, 1, 0, 1, 0, 1, 0, 0, 0, 0, 0, 0, 1, 1, 1, 1]
      (Sys.init 0 (fun _ => none) (fun _ => 0) (fun _ => 0))).engine = 4096 :=
  ⟨keepsAddress_sampleEnv, by decide, by decide, by decide,
   ((materialize_at_most_once (sampleEnv true 4096 0) 1 keepsAddress_sampleEnv 0
      (fun _ => none) (fun _ => 0) (fun _ => 0)
      [0, 1, 0, 1, 0, 1, 0, 0, 0, 0, 0, 0, 1, 1, 1, 1]).2 0 1 4096 4096
      (by decide) (by decide)).2.2⟩

/-- A thread that runs alone does what `materializeFunction` does when no
other thread acts while it waits for the lock: after nine steps it has left
the function the same way, with the same engine state, code fields and
back-links, and it owns the lock exactly when the call has left one held. -/
theorem alone_agrees (env : Env E) (F : Nat) (hq : ∀ c e, env.aquire c e = e) (e : E)
    (code definition : Nat → Nat) (t : Nat) :
    (runSchedule env F (List.replicate 9 t)
        (Sys.init e (fun _ => none) code definition)).engine
      = (materializeFunction env F ⟨e, fun _ => 0, code, definition⟩).world.engine ∧
    (runSchedule env F (List.replicate 9 t)
        (Sys.init e (fun _ => none) code definition)).code
      = (materializeFunction env F ⟨e, fun _ => 0, code, definition⟩).world.code ∧
    (runSchedule env F (List.replicate 9 t)
        (Sys.init e (fun _ => none) code definition)).definition
      = (materializeFunction env F ⟨e, fun _ => 0, code, definition⟩).world.definition ∧
    ((runSchedule env F (List.replicate 9 t)
        (Sys.init e (fun _ => none) code definition)).pc t = Pc.failed ↔
      (materializeFunction env F ⟨e, fun _ => 0, code, definition⟩).outcome
        = Outcome.raised) ∧
    ((∃ res, (runSchedule env F (List.replicate 9 t)
        (Sys.init e (fun _ => none) code definition)).pc t = Pc.done res) ↔
      (materializeFunction env F ⟨e, fun _ => 0, code, definition⟩).outcome
        = Outcome.returned false) ∧
    ((runSchedule env F (List.replicate 9 t)
        (Sys.init e (fun _ => none) code definition)).owner
          (env.classDef (env.functions F)) = some t ↔
      (materializeFunction env F ⟨e, fun _ => 0, code, definition⟩).world.held
          (env.classDef (env.functions F)) = 1) := by
  refine materializeFunction_cases env F ⟨e, fun _ => 0, code, definition⟩
    (fun r =>
      (runSchedule env F (List.replicate 9 t)
          (Sys.init e (fun _ => none) code definition)).engine = r.world.engine ∧
      (runSchedule env F (List.replicate 9 t)
          (Sys.init e (fun _ => none) code definition)).code = r.world.code ∧
      (runSchedule env F (List.replicate 9 t)
          (Sys.init e (fun _ => none) code definition)).definition = r.world.definition ∧
      ((runSchedule env F (List.replicate 9 t)
          (Sys.init e (fun _ => none) code definition)).pc t = Pc.failed ↔
        r.outcome = Outcome.raised) ∧
      ((∃ res, (runSchedule env F (List.replicate 9 t)
          (Sys.init e (fun _ => none) code definition)).pc t = Pc.done res) ↔
        r.outcome = Outcome.returned false) ∧
      ((runSchedule env F (List.replicate 9 t)
          (Sys.init e (fun _ => none) code definition)).owner
            (env.classDef (env.functions F)) = some t ↔
        r.world.held (env.classDef (env.functions F)) = 1))
    ?_ ?_ ?_ ?_ ?_ ?_ ?_
  · intro h1
    simp at h1
    simp [List.replicate, runSchedule, step, Sys.init, Sys.goto, h1]
  · intro h1 h2
    simp at h1
    simp [List.replicate, runSchedule, step, Sys.init, Sys.goto, h1, h2]
  · intro m f res hm hf hres h1 h2 h3
    subst hm hf hres
    simp at h1 h3
    simp [List.replicate, runSchedule, step, Sys.init, Sys.goto, h1, h2, h3]
  · intro m f c w1 res hm hf hc hw1 hres h1 h2 h3 h4
    subst hm hf hc hw1 hres
    simp [hq] at h1 h3 h4
    exact absurd h3 h4
  · intro m f c w1 hm hf hc hw1 h1 h2 h3 h4 h5
    subst hm hf hc hw1
    simp [hq] at h1 h3 h5
    simp [List.replicate, runSchedule, step, Sys.init, Sys.goto, h1, h2, h3, h5, hq]
  · intro m f c w1 e1 w2 hm hf hc hw1 hw2 h1 h2 h3 h4 h5 h6
    subst hm hf hc hw1 hw2
    simp [hq] at h1 h3 h5
    simp [List.replicate, runSchedule, step, Sys.init, Sys.goto, h1, h2, h3, h5, h6, hq]
  · intro m f c w1 e1 w2 res e2 w3 w4 w5 hm hf hc hw1 hw2 hw3 hw4 hw5 h1 h2 h3 h4 h5 h6
    subst hm hf hc hw1 hw2 hw3 hw4 hw5
    simp [hq] at h1 h3 h5
    simp [List.replicate, runSchedule, step, Sys.init, Sys.goto, releaseAndResolve,
      World.release, h1, h2,
      h3, h5, h6, hq]

end Concurrent

/-! ## The comparator `ltutf8` -/

section Comparator

theorem bytesOf_length (be : Bool) (es : List Nat) : (bytesOf be es).length = es.length * 2 := by
  induction es with
  | nil => simp [bytesOf]
  | cons e rest ih => cases be <;> simp [bytesOf, ih] <;> omega

theorem memcmp_neg_iff_lexLess (n : Nat) (xs ys : List Nat) (hx : xs.length = n)
    (hy : ys.length = n) : memcmp xs ys n < 0 ↔ lexLess xs ys = true := by
  induction xs generalizing ys n with
  | nil =>
    cases ys with
    | nil => cases n <;> simp [memcmp, lexLess]
    | cons y ys => simp at hx hy; omega
  | cons x xs ih =>
    cases ys with
    | nil => simp at hx hy; omega
    | cons y ys =>
      cases n with
      | zero => simp at hx
      | succ n =>
        simp only [List.length_cons, Nat.add_right_cancel_iff] at hx hy
        simp only [memcmp, lexLess]
        by_cases h1 : x < y
        · simp [h1]
        · by_cases h2 : y < x
          · simp [h1, h2]
          · simp only [h1, h2, if_false]
            exact ih n ys hx hy

/-- C11, as the code has it: with `MULTIPLE_VM`, `ltutf8(s1, s2)` holds exactly
when `s1` has fewer elements than `s2`, or the two have the same number of
elements and the bytes of the elements of `s1`, as they lie in memory, come
before those of `s2` in lexicographic order. -/
theorem ltutf8_size_then_bytes (be : Bool) (s1 s2 : UTF8) :
    ltutf8 true be s1 s2 = true ↔
      s1.size < s2.size ∨
      (s1.size = s2.size ∧
        lexLess (bytesOf be s1.elements) (bytesOf be s2.elements) = true) := by
  simp only [ltutf8, if_true]
  by_cases h1 : s1.size < s2.size
  · simp [h1]
  · by_cases h2 : s1.size > s2.size
    · have h3 : s1.size ≠ s2.size := by omega
      simp [h1, h2, h3]
    · have h3 : s1.size = s2.size := by omega
      have hx : (bytesOf be s1.elements).length = s1.size * 2 := bytesOf_length be _
      have hy : (bytesOf be s2.elements).length = s1.size * 2 := by
        rw [h3]
        exact bytesOf_length be _
      have := memcmp_neg_iff_lexLess (s1.size * 2) _ _ hx hy
      rw [if_neg h1, if_neg h2, decide_eq_true_eq, this]
      constructor
      · intro h
        exact Or.inr ⟨h3, h⟩
      · rintro (h | ⟨_, h⟩)
        · exact absurd h h1
        · exact h

/-- C11 as stated fails: the symbol with the two elements 97, 97 has bytes that
come before those of the symbol with the one element 98, and `ltutf8` does not
put it first, since it is the longer one; in the other direction `ltutf8`
holds though the bytes do not come first. -/
theorem ltutf8_size_then_bytes_counterexample :
    ¬ (∀ (be : Bool) (s1 s2 : UTF8),
        ltutf8 true be s1 s2 = true ↔
          lexLess (bytesOf be s1.elements) (bytesOf be s2.elements) = true) := by
  intro h
  have h1 := (h false ⟨1, [97, 97]⟩ ⟨2, [98]⟩).2 (by decide)
  revert h1
  decide

end Comparator

/-! ## `J3Signature::operator new` -/

section Signature

/-- C12, as the code has it: for every count `n` of parameters, `n = 0`
included, for which the header and `n` slots together stay below `2 ^ 64`, the
size asked for is that of the header, `sizeof(J3Signature) -
sizeof(J3Type*)`, and exactly `n` slots.  The sizes are any with
`sizeof(J3Type*) ≤ sizeof(J3Signature) < 2 ^ 64`, the object holding one
slot. -/
theorem operatorNewSize_exact (S P n : Nat) (hP : P ≤ S) (hS : S < 2 ^ 64) (hn : n < 2 ^ 64)
    (hfit : (S - P) + n * P < 2 ^ 64) :
    J3Signature.operatorNewSize S P n = (S - P) + n * P := by
  unfold J3Signature.operatorNewSize
  cases n with
  | zero =>
    have hr : ((2 ^ 64 - 1) * P % 2 ^ 64 + P) % 2 ^ 64 = 0 := by
      rw [Nat.mod_add_mod]
      have h1 : (2 ^ 64 - 1 + 1) * P = (2 ^ 64 - 1) * P + P := Nat.succ_mul _ _
      have h2 : (2 ^ 64 - 1 + 1) * P = 2 ^ 64 * P := by norm_num
      rw [← h1, h2, Nat.mul_mod_right]
    have h0 : (0 + 2 ^ 64 - 1) % 2 ^ 64 = 2 ^ 64 - 1 := by norm_num
    rw [h0]
    generalize (2 ^ 64 - 1) * P % 2 ^ 64 = r at hr ⊢
    omega
  | succ m =>
    have h0 : (m + 1 + 2 ^ 64 - 1) % 2 ^ 64 = m := by omega
    have h1 : (m + 1) * P = m * P + P := Nat.succ_mul _ _
    rw [h1] at hfit
    rw [h0, h1]
    generalize m * P = q at hfit ⊢
    omega

/-- C12, an instance: with the sizes 56 and 8 of a target with 64-bit
pointers, no parameter gives 48 bytes, the header alone, and three parameters
give 72. -/
theorem operatorNewSize_exact_witness :
    8 ≤ 56 ∧ 56 < 2 ^ 64 ∧ 0 < 2 ^ 64 ∧ (56 - 8) + 0 * 8 < 2 ^ 64 ∧
    J3Signature.operatorNewSize 56 8 0 = 48 ∧ J3Signature.operatorNewSize 56 8 3 = 72 :=
  ⟨by decide, by decide, by decide, by decide,
   operatorNewSize_exact 56 8 0 (by decide) (by decide) (by decide) (by decide),
   operatorNewSize_exact 56 8 3 (by decide) (by decide) (by decide) (by decide)⟩

/-- C12 as stated fails: `2 ^ 61 - 1` parameters of 8 bytes do not overflow,
and the size asked for is 40 bytes, not the header and `2 ^ 61 - 1` slots. -/
theorem operatorNewSize_exact_counterexample :
    ¬ (∀ (S P n : Nat), P ≤ S → S < 2 ^ 64 → n < 2 ^ 64 → n * P < 2 ^ 64 →
        J3Signature.operatorNewSize S P n = (S - P) + n * P) := by
  intro h
  have h1 := h 56 8 (2 ^ 61 - 1) (by decide) (by decide) (by decide) (by decide)
  revert h1
  decide

end Signature

/-! ## The tables: lookups, faithful copies, absent keys -/

section TablesMore

variable {K C W Vm : Type}

theorem find_some_mem (lt : K → K → Bool) (k : K) (m : List (K × C)) (p : K × C)
    (h : find lt k m = some p) : p ∈ m ∧ lt p.1 k = false ∧ lt k p.1 = false := by
  induction m with
  | nil => simp [find, lowerBound] at h
  | cons q rest ih =>
    by_cases h1 : lt q.1 k = true
    · rw [find_cons_lt lt k q rest h1] at h
      have := ih h
      exact ⟨List.mem_cons_of_mem _ this.1, this.2⟩
    · have h1f : lt q.1 k = false := by simpa using h1
      simp only [find, lowerBound, h1f, Bool.false_eq_true, if_false] at h
      by_cases h2 : lt k q.1 = true
      · simp [h2] at h
      · have h2f : lt k q.1 = false := by simpa using h2
        simp only [h2f, Bool.false_eq_true, if_false, Option.some.injEq] at h
        subst h
        exact ⟨List.mem_cons_self _ _, h1f, h2f⟩

/-- C13: `lookup(K)` leaves the entries of the table, the creator state and the
invocation count as they were, whether `K` has an entry or not, and a second
`lookup(K)` right after it returns the same result; so for `LockedMap` and
for `TypeMap`. -/
theorem lookup_never_creates (lt : K → K → Bool) [Zero C] (s : LockedMap K C W) (k : K)
    (mvm be : Bool) (ts : TypeMap) (u : UTF8) :
    ((LockedMap.lookup lt k s).2.map = s.map ∧
      (LockedMap.lookup lt k s).2.world = s.world ∧
      (LockedMap.lookup lt k s).2.created = s.created ∧
      (LockedMap.lookup lt k (LockedMap.lookup lt k s).2).1 = (LockedMap.lookup lt k s).1) ∧
    ((TypeMap.lookup mvm be u ts).2.map = ts.map ∧
      (TypeMap.lookup mvm be u (TypeMap.lookup mvm be u ts).2).1
        = (TypeMap.lookup mvm be u ts).1) := by
  refine ⟨⟨rfl, rfl, rfl, rfl⟩, rfl, rfl⟩

/-- C15: the special tables do what the generic container does.
`StringMap::lookupOrCreate` returns the value and leaves the table that
`LockedMap<const UTF8*, JavaString*, ltutf8>::lookupOrCreate` returns and
leaves, and `TypeMap::lookup` and `TypeMap::hash` return the value and leave
the table that `lookup` and `hash` of `LockedMap<const UTF8*, Typedef*,
ltutf8>` return and leave. -/
theorem special_tables_agree (mvm be : Bool) (V : UTF8) (vm : Vm)
    (func : UTF8 → Vm → W → Nat × W) (ss : StringMap W) (ts : TypeMap) (c : Nat) :
    ((StringMap.lookupOrCreate mvm be V vm func ss).1
        = (LockedMap.lookupOrCreate (ltutf8 mvm be) V vm func ss.toLockedMap).1 ∧
      (StringMap.lookupOrCreate mvm be V vm func ss).2.toLockedMap
        = (LockedMap.lookupOrCreate (ltutf8 mvm be) V vm func ss.toLockedMap).2) ∧
    ((TypeMap.lookup mvm be V ts).1
        = (LockedMap.lookup (ltutf8 mvm be) V ts.toLockedMap).1 ∧
      (TypeMap.lookup mvm be V ts).2.toLockedMap
        = (LockedMap.lookup (ltutf8 mvm be) V ts.toLockedMap).2) ∧
    (TypeMap.hash mvm be V c ts).toLockedMap
      = LockedMap.hash (ltutf8 mvm be) V c ts.toLockedMap := by
  refine ⟨?_, ⟨?_, rfl⟩, rfl⟩
  swap
  · simp only [TypeMap.lookup, LockedMap.lookup, TypeMap.toLockedMap, LockedMap.lock,
      LockedMap.unlock]
    cases find (ltutf8 mvm be) V ts.map <;> rfl
  cases h : find (ltutf8 mvm be) V ss.map with
  | none =>
    simp [StringMap.lookupOrCreate, LockedMap.lookupOrCreate, StringMap.toLockedMap,
      LockedMap.lock, LockedMap.unlock, h]
  | some I =>
    simp [StringMap.lookupOrCreate, LockedMap.lookupOrCreate, StringMap.toLockedMap,
      LockedMap.lock, LockedMap.unlock, h]

/-- C18: in a table whose stored values are all non-null, `lookup(K)` returns 0
exactly when `K` has no entry, and returns the stored value of the entry of
`K` when it has one; so for `LockedMap` and for `TypeMap`. -/
theorem lookup_null_iff_absent (lt : K → K → Bool) [Zero C] (s : LockedMap K C W) (k : K)
    (hnonnull : ∀ p ∈ s.map, p.2 ≠ 0)
    (mvm be : Bool) (ts : TypeMap) (u : UTF8) (htnonnull : ∀ p ∈ ts.map, p.2 ≠ 0) :
    (((LockedMap.lookup lt k s).1 = 0 ↔ find lt k s.map = none) ∧
      ∀ I, find lt k s.map = some I → (LockedMap.lookup lt k s).1 = I.2) ∧
    (((TypeMap.lookup mvm be u ts).1 = 0 ↔ find (ltutf8 mvm be) u ts.map = none) ∧
      ∀ I, find (ltutf8 mvm be) u ts.map = some I → (TypeMap.lookup mvm be u ts).1 = I.2) := by
  constructor
  · constructor
    · simp only [LockedMap.lookup, LockedMap.lock, LockedMap.unlock]
      cases h : find lt k s.map with
      | none => simp
      | some I =>
        have := hnonnull I (find_some_mem lt k s.map I h).1
        simp [this]
    · intro I h
      simp [LockedMap.lookup, LockedMap.lock, LockedMap.unlock, h]
  · constructor
    · simp only [TypeMap.lookup]
      cases h : find (ltutf8 mvm be) u ts.map with
      | none => simp
      | some I =>
        have := htnonnull I (find_some_mem _ u ts.map I h).1
        simp [this]
    · intro I h
      simp [TypeMap.lookup, h]

/-- C18, an instance: in the table with the entries (1, 10) and (3, 30),
`lookup(2)` returns 0 and `lookup(3)` returns 30. -/
theorem lookup_null_iff_absent_witness :
    (∀ p ∈ (⟨false, [(1, 10), (3, 30)], (), 0⟩ : LockedMap Nat Nat Unit).map, p.2 ≠ 0) ∧
    (LockedMap.lookup ptrLess 2
      (⟨false, [(1, 10), (3, 30)], (), 0⟩ : LockedMap Nat Nat Unit)).1 = 0 ∧
    (LockedMap.lookup ptrLess 3
      (⟨false, [(1, 10), (3, 30)], (), 0⟩ : LockedMap Nat Nat Unit)).1 = 30 ∧
    (TypeMap.lookup true false ⟨5, [97]⟩ ⟨false, [(⟨4, [98]⟩, 7)]⟩).1 = 0 :=
  have h := lookup_null_iff_absent ptrLess
    (⟨false, [(1, 10), (3, 30)], (), 0⟩ : LockedMap Nat Nat Unit) 2 (by decide)
    true false ⟨false, [(⟨4, [98]⟩, 7)]⟩ ⟨5, [97]⟩ (by decide)
  ⟨by decide, h.1.1.2 (by decide), by decide, h.2.1.2 (by decide)⟩

theorem strictWeak_ptrLess : StrictWeak ptrLess := by
  refine ⟨?_, ?_, ?_⟩
  · intro a
    simp [ptrLess]
  · intro a b c h1 h2
    simp only [ptrLess, decide_eq_true_eq] at h1 h2 ⊢
    omega
  · intro a b c h1 h2 h3 h4
    simp only [ptrLess, decide_eq_false_iff_not] at h1 h2 h3 h4 ⊢
    omega

theorem StrictWeak.asymm {lt : K → K → Bool} (hsw : StrictWeak lt) (a b : K)
    (h : lt a b = true) : lt b a = false := by
  cases hba : lt b a with
  | false => rfl
  | true =>
    have := hsw.trans a b a h hba
    rw [hsw.irrefl a] at this
    exact absurd this (by simp)

/-- Keys that are equivalent under the comparator compare alike with every
key. -/
theorem StrictWeak.congr {lt : K → K → Bool} (hsw : StrictWeak lt) (a b x : K)
    (hab : lt a b = false) (hba : lt b a = false) :
    lt x a = lt x b ∧ lt a x = lt b x := by
  constructor
  · cases hxa : lt x a with
    | true =>
      cases hxb : lt x b with
      | true => rfl
      | false =>
        cases hbx : lt b x with
        | true =>
          have := hsw.trans b x a hbx hxa
          rw [hba] at this
          exact absurd this (by simp)
        | false =>
          have := (hsw.incomp x b a hxb hbx hba hab).1
          rw [hxa] at this
          exact absurd this (by simp)
    | false =>
      cases hxb : lt x b with
      | false => rfl
      | true =>
        cases hax : lt a x with
        | true =>
          have := hsw.trans a x b hax hxb
          rw [hab] at this
          exact absurd this (by simp)
        | false =>
          have := (hsw.incomp x a b hxa hax hab hba).1
          rw [hxb] at this
          exact absurd this (by simp)
  · cases hax : lt a x with
    | true =>
      cases hbx : lt b x with
      | true => rfl
      | false =>
        cases hxb : lt x b with
        | true =>
          have := hsw.trans a x b hax hxb
          rw [hab] at this
          exact absurd this (by simp)
        | false =>
          have := (hsw.incomp a b x hab hba hbx hxb).1
          rw [hax] at this
          exact absurd this (by simp)
    | false =>
      cases hbx : lt b x with
      | false => rfl
      | true =>
        cases hxa : lt x a with
        | true =>
          have := hsw.trans b x a hbx hxa
          rw [hba] at this
          exact absurd this (by simp)
        | false =>
          have := (hsw.incomp b a x hba hab hax hxa).1
          rw [hbx] at this
          exact absurd this (by simp)

theorem lowerBound_congr (lt : K → K → Bool) (a b : K) (h : ∀ x, lt x a = lt x b)
    (m : List (K × C)) : lowerBound lt a m = lowerBound lt b m := by
  induction m with
  | nil => rfl
  | cons q rest ih => simp only [lowerBound, h q.1, ih]

theorem find_congr (lt : K → K → Bool) (a b : K) (h1 : ∀ x, lt x a = lt x b)
    (h2 : ∀ x, lt a x = lt b x) (m : List (K × C)) : find lt a m = find lt b m := by
  simp only [find, lowerBound_congr lt a b h1 m]
  cases lowerBound lt b m with
  | nil => rfl
  | cons q rest => simp only [h2 q.1]

theorem insert_eq_of_find_some (lt : K → K → Bool) (k : K) (c : C) (m : List (K × C))
    (p : K × C) (h : find lt k m = some p) : insert lt k c m = m := by
  induction m with
  | nil => simp [find, lowerBound] at h
  | cons q rest ih =>
    by_cases h1 : lt q.1 k = true
    · rw [find_cons_lt lt k q rest h1] at h
      simp only [insert, h1, if_true, ih h]
    · have h1f : lt q.1 k = false := by simpa using h1
      simp only [find, lowerBound, h1f, Bool.false_eq_true, if_false] at h
      by_cases h2 : lt k q.1 = true
      · simp [h2] at h
      · have h2f : lt k q.1 = false := by simpa using h2
        simp only [insert, h1f, h2f, Bool.false_eq_true, if_false]

theorem find_cons_not_lt (lt : K → K → Bool) (k : K) (q : K × C) (rest : List (K × C))
    (h : lt q.1 k = false) :
    find lt k (q :: rest) = if lt k q.1 then none else some q := by
  simp only [find, lowerBound, h, Bool.false_eq_true, if_false]

/-- An insertion under a key leaves what `find` gives for a key that is not
equivalent to it. -/
theorem find_insert_other (lt : K → K → Bool) (hsw : StrictWeak lt) (k k2 : K) (c : C)
    (hne : lt k k2 = true ∨ lt k2 k = true) (m : List (K × C)) :
    find lt k2 (insert lt k c m) = find lt k2 m := by
  induction m with
  | nil =>
    rcases hne with h | h
    · simp [insert, find, lowerBound, h]
    · have h2 := hsw.asymm k2 k h
      simp [insert, find, lowerBound, h, h2]
  | cons q rest ih =>
    by_cases h1 : lt q.1 k = true
    · simp only [insert, h1, if_true]
      by_cases h3 : lt q.1 k2 = true
      · rw [find_cons_lt lt k2 q _ h3, find_cons_lt lt k2 q _ h3, ih]
      · have h3f : lt q.1 k2 = false := by simpa using h3
        rw [find_cons_not_lt lt k2 q _ h3f, find_cons_not_lt lt k2 q _ h3f]
    · have h1f : lt q.1 k = false := by simpa using h1
      by_cases h2 : lt k q.1 = true
      · simp only [insert, h1f, h2, Bool.false_eq_true, if_false, if_true]
        by_cases h4 : lt k k2 = true
        · exact find_cons_lt lt k2 (k, c) _ h4
        · have h4f : lt k k2 = false := by simpa using h4
          have h5 : lt k2 k = true := by
            rcases hne with h | h
            · rw [h4f] at h
              exact absurd h (by simp)
            · exact h
          have h6 : lt k2 q.1 = true := hsw.trans k2 k q.1 h5 h2
          have h7 : lt q.1 k2 = false := hsw.asymm k2 q.1 h6
          rw [find_cons_not_lt lt k2 (k, c) _ h4f, find_cons_not_lt lt k2 q _ h7]
          simp [h5, h6]
      · have h2f : lt k q.1 = false := by simpa using h2
        simp only [insert, h1f, h2f, Bool.false_eq_true, if_false]

/-- An insertion, under any key, leaves an entry that `find` gives where it
is. -/
theorem find_insert_keeps (lt : K → K → Bool) (hsw : StrictWeak lt) (k k2 : K) (c : C)
    (m : List (K × C)) (p : K × C) (h : find lt k m = some p) :
    find lt k (insert lt k2 c m) = some p := by
  by_cases hne : lt k2 k = true ∨ lt k k2 = true
  · rw [find_insert_other lt hsw k2 k c hne m, h]
  · have h1 : lt k2 k = false := by
      cases hx : lt k2 k with
      | false => rfl
      | true => exact absurd (Or.inl hx) hne
    have h2 : lt k k2 = false := by
      cases hx : lt k k2 with
      | false => rfl
      | true => exact absurd (Or.inr hx) hne
    have hc := fun x => hsw.congr k k2 x h2 h1
    have hf : find lt k2 m = some p := by
      rw [← find_congr lt k k2 (fun x => (hc x).1) (fun x => (hc x).2) m]
      exact h
    rw [insert_eq_of_find_some lt k2 c m p hf]
    exact h

theorem find_apply_keeps (lt : K → K → Bool) (hsw : StrictWeak lt) (k : K) (p : K × C)
    (op : TableOp K C W Vm) (s : LockedMap K C W) (h : find lt k s.map = some p) :
    find lt k (LockedMap.apply lt op s).map = some p := by
  cases op with
  | hash k2 c =>
    simp only [LockedMap.apply, LockedMap.hash, LockedMap.lock, LockedMap.unlock]
    exact find_insert_keeps lt hsw k k2 c s.map p h
  | lookupOrCreate k2 vm func =>
    simp only [LockedMap.apply]
    cases h2 : find lt k2 s.map with
    | none =>
      rw [lookupOrCreate_absent lt k2 vm func s h2]
      exact find_insert_keeps lt hsw k k2 _ s.map p h
    | some I =>
      rw [lookupOrCreate_present lt k2 vm func s I h2]
      exact h

theorem find_applyAll_keeps (lt : K → K → Bool) (hsw : StrictWeak lt) (k : K) (p : K × C)
    (ops : List (TableOp K C W Vm)) (s : LockedMap K C W) (h : find lt k s.map = some p) :
    find lt k (LockedMap.applyAll lt ops s).map = some p := by
  induction ops generalizing s with
  | nil => exact h
  | cons op rest ih => exact ih _ (find_apply_keeps lt hsw k p op s h)

/-- C14: from a table in which `K` has the entry `p`, any finite sequence of
`hash` and `lookupOrCreate` operations, on any keys and with any values and
creators, leaves `K` with that entry, and `lookup(K)` still returns its value;
a `hash(K, V')` does not replace the value, and a `lookupOrCreate` on `K`
returns it, invokes no creator and leaves the map as it is. -/
theorem value_installed_once (lt : K → K → Bool) [Zero C] (hsw : StrictWeak lt)
    (s : LockedMap K C W) (k : K) (p : K × C) (hfind : find lt k s.map = some p)
    (ops : List (TableOp K C W Vm)) (c : C) (vm : Vm) (func : K → Vm → W → C × W) :
    find lt k (LockedMap.applyAll lt ops s).map = some p ∧
    (LockedMap.lookup lt k (LockedMap.applyAll lt ops s)).1 = p.2 ∧
    (LockedMap.lookup lt k (LockedMap.hash lt k c s)).1 = p.2 ∧
    (LockedMap.hash lt k c s).map = s.map ∧
    (LockedMap.lookupOrCreate lt k vm func s).1 = p.2 ∧
    (LockedMap.lookupOrCreate lt k vm func s).2.map = s.map ∧
    (LockedMap.lookupOrCreate lt k vm func s).2.created = s.created := by
  have h1 := find_applyAll_keeps lt hsw k p ops s hfind
  have h2 : (LockedMap.hash lt k c s).map = s.map := by
    simp only [LockedMap.hash, LockedMap.lock, LockedMap.unlock]
    exact insert_eq_of_find_some lt k c s.map p hfind
  refine ⟨h1, ?_, ?_, h2, ?_, ?_, ?_⟩
  · simp only [LockedMap.lookup, LockedMap.lock, LockedMap.unlock, h1]
  · simp only [LockedMap.lookup, LockedMap.lock, LockedMap.unlock, h2, hfind]
  · rw [lookupOrCreate_present lt k vm func s p hfind]
  · rw [lookupOrCreate_present lt k vm func s p hfind]
  · rw [lookupOrCreate_present lt k vm func s p hfind]

/-- C14, an instance: key 2 has the value 20; after `hash(2, 99)`, a
`lookupOrCreate` on key 2, `hash(1, 5)` and a `lookupOrCreate` that creates
key 7, `lookup(2)` returns 20. -/
theorem value_installed_once_witness :
    StrictWeak ptrLess ∧
    find ptrLess 2 (⟨false, [(2, 20), (5, 50)], 0, 0⟩ : LockedMap Nat Nat Nat).map
      = some (2, 20) ∧
    (LockedMap.lookup ptrLess 2 (LockedMap.applyAll ptrLess
      [TableOp.hash 2 99, TableOp.lookupOrCreate 2 () (fun k _ w => (100 * k + w, w + 1)),
       TableOp.hash 1 5, TableOp.lookupOrCreate 7 () (fun k _ w => (100 * k + w, w + 1))]
      (⟨false, [(2, 20), (5, 50)], 0, 0⟩ : LockedMap Nat Nat Nat))).1 = 20 ∧
    (LockedMap.applyAll ptrLess
      [TableOp.hash 2 99, TableOp.lookupOrCreate 2 () (fun k _ w => (100 * k + w, w + 1)),
       TableOp.hash 1 5, TableOp.lookupOrCreate 7 () (fun k _ w => (100 * k + w, w + 1))]
      (⟨false, [(2, 20), (5, 50)], 0, 0⟩ : LockedMap Nat Nat Nat)).map
      = [(1, 5), (2, 20), (5, 50), (7, 700)] :=
  ⟨strictWeak_ptrLess, by decide,
   (value_installed_once ptrLess strictWeak_ptrLess
      (⟨false, [(2, 20), (5, 50)], 0, 0⟩ : LockedMap Nat Nat Nat) 2 (2, 20) (by decide)
      [TableOp.hash 2 99, TableOp.lookupOrCreate 2 () (fun k _ w => (100 * k + w, w + 1)),
       TableOp.hash 1 5, TableOp.lookupOrCreate 7 () (fun k _ w => (100 * k + w, w + 1))]
      0 () (fun k _ w => (100 * k + w, w + 1))).2.1,
   by decide⟩

theorem upperBound_of_all_gt (lt : K → K → Bool) (k : K) (m : List (K × C))
    (h : ∀ x ∈ m, lt k x.1 = true) : upperBound lt k m = m := by
  cases m with
  | nil => rfl
  | cons q rest => simp [upperBound, h q (List.mem_cons_self _ _)]

theorem find_of_all_gt (lt : K → K → Bool) (hsw : StrictWeak lt) (k : K) (m : List (K × C))
    (h : ∀ x ∈ m, lt k x.1 = true) : find lt k m = none := by
  cases m with
  | nil => rfl
  | cons q rest =>
    have h1 := h q (List.mem_cons_self _ _)
    rw [find_cons_not_lt lt k q rest (hsw.asymm k q.1 h1)]
    simp [h1]

/-- In a map whose entries are in key order, erasing a key leaves what `find`
gives for a key that is not equivalent to it. -/
theorem find_erase_other (lt : K → K → Bool) (hsw : StrictWeak lt) (k k2 : K)
    (hne : lt k k2 = true ∨ lt k2 k = true) (m : List (K × C)) (hord : Ordered lt m) :
    find lt k2 (erase lt k m) = find lt k2 m := by
  induction m with
  | nil => rfl
  | cons q rest ih =>
    have hq := List.pairwise_cons.mp hord
    by_cases h1 : lt q.1 k = true
    · simp only [erase, h1, if_true]
      by_cases h3 : lt q.1 k2 = true
      · rw [find_cons_lt lt k2 q _ h3, find_cons_lt lt k2 q _ h3, ih hq.2]
      · have h3f : lt q.1 k2 = false := by simpa using h3
        rw [find_cons_not_lt lt k2 q _ h3f, find_cons_not_lt lt k2 q _ h3f]
    · have h1f : lt q.1 k = false := by simpa using h1
      simp only [erase, h1f, Bool.false_eq_true, if_false]
      by_cases h2 : lt k q.1 = true
      · simp only [upperBound, h2, if_true]
      · have h2f : lt k q.1 = false := by simpa using h2
        have hc := fun x => hsw.congr k q.1 x h2f h1f
        have hgt : ∀ x ∈ rest, lt k x.1 = true := by
          intro x hx
          rw [(hc x.1).2]
          exact hq.1 x hx
        simp only [upperBound, h2f, Bool.false_eq_true, if_false]
        rw [upperBound_of_all_gt lt k rest hgt]
        by_cases h3 : lt q.1 k2 = true
        · rw [find_cons_lt lt k2 q _ h3]
        · have h3f : lt q.1 k2 = false := by simpa using h3
          have h4 : lt k2 q.1 = true := by
            rcases hne with h | h
            · rw [← (hc k2).2, h] at h3f
              exact absurd h3f (by simp)
            · rw [← (hc k2).1]
              exact h
          rw [find_cons_not_lt lt k2 q _ h3f]
          simp only [h4, if_true]
          exact find_of_all_gt lt hsw k2 rest
            (fun x hx => hsw.trans k2 q.1 x.1 h4 (hq.1 x hx))

/-- C17: for keys `K` and `K'` that are not equivalent under the comparator of
the table, `hash(K, V)`, `remove(K)` and `lookupOrCreate(K, vm, f)` leave the
result of `lookup(K')` as it was; the entries of the table are in key order,
as those of a `std::map` are. -/
theorem other_keys_undisturbed (lt : K → K → Bool) [Zero C] (hsw : StrictWeak lt)
    (s : LockedMap K C W) (hord : Ordered lt s.map) (k k2 : K)
    (hne : lt k k2 = true ∨ lt k2 k = true) (c : C) (vm : Vm) (func : K → Vm → W → C × W) :
    (LockedMap.lookup lt k2 (LockedMap.hash lt k c s)).1 = (LockedMap.lookup lt k2 s).1 ∧
    (LockedMap.lookup lt k2 (LockedMap.remove lt k s)).1 = (LockedMap.lookup lt k2 s).1 ∧
    (LockedMap.lookup lt k2 (LockedMap.lookupOrCreate lt k vm func s).2).1
      = (LockedMap.lookup lt k2 s).1 := by
  refine ⟨?_, ?_, ?_⟩
  · simp only [LockedMap.lookup, LockedMap.hash, LockedMap.lock, LockedMap.unlock,
      find_insert_other lt hsw k k2 c hne s.map]
  · simp only [LockedMap.lookup, LockedMap.remove, LockedMap.lock, LockedMap.unlock,
      find_erase_other lt hsw k k2 hne s.map hord]
  · cases h2 : find lt k s.map with
    | none =>
      rw [lookupOrCreate_absent lt k vm func s h2]
      simp only [LockedMap.lookup, LockedMap.lock, LockedMap.unlock,
        find_insert_other lt hsw k k2 _ hne s.map]
    | some I =>
      rw [lookupOrCreate_present lt k vm func s I h2]
      simp only [LockedMap.lookup, LockedMap.lock, LockedMap.unlock]

/-- C17, an instance: in the table with the keys 1, 2 and 3, `remove(2)` leaves
`lookup(3)` at 30, and `hash(4, 40)` does too. -/
theorem other_keys_undisturbed_witness :
    StrictWeak ptrLess ∧
    Ordered ptrLess (⟨false, [(1, 10), (2, 20), (3, 30)], 0, 0⟩ : LockedMap Nat Nat Nat).map ∧
    (ptrLess 2 3 = true ∨ ptrLess 3 2 = true) ∧
    (LockedMap.lookup ptrLess 3 (LockedMap.remove ptrLess 2
      (⟨false, [(1, 10), (2, 20), (3, 30)], 0, 0⟩ : LockedMap Nat Nat Nat))).1 = 30 ∧
    (LockedMap.lookup ptrLess 3 (LockedMap.hash ptrLess 4 40
      (⟨false, [(1, 10), (2, 20), (3, 30)], 0, 0⟩ : LockedMap Nat Nat Nat))).1 = 30 :=
  have hord : Ordered ptrLess
      (⟨false, [(1, 10), (2, 20), (3, 30)], 0, 0⟩ : LockedMap Nat Nat Nat).map := by
    simp [Ordered, ptrLess]
  ⟨strictWeak_ptrLess, hord, Or.inl (by decide),
   (other_keys_undisturbed ptrLess strictWeak_ptrLess
      (⟨false, [(1, 10), (2, 20), (3, 30)], 0, 0⟩ : LockedMap Nat Nat Nat) hord 2 3
      (Or.inl (by decide)) 0 () (fun k _ w => (100 * k + w, w + 1))).2.1.trans (by decide),
   by decide⟩

end TablesMore

/-! ## `ltutf8` as an order on the contents of symbols -/

section ContentOrder

variable {C W : Type}

theorem lexLess_irrefl (xs : List Nat) : lexLess xs xs = false := by
  induction xs with
  | nil => rfl
  | cons x rest ih => simp [lexLess, ih]

theorem lexLess_asymm (xs ys : List Nat) (h : lexLess xs ys = true) : lexLess ys xs = false := by
  induction xs generalizing ys with
  | nil => cases ys <;> simp [lexLess] at h ⊢
  | cons x rest ih =>
    cases ys with
    | nil => simp [lexLess] at h
    | cons y ys =>
      simp only [lexLess] at h ⊢
      split_ifs at h ⊢
      all_goals first
        | omega
        | rfl
        | exact ih ys h

theorem lexLess_trans (xs ys zs : List Nat) (h1 : lexLess xs ys = true)
    (h2 : lexLess ys zs = true) : lexLess xs zs = true := by
  induction xs generalizing ys zs with
  | nil =>
    cases ys with
    | nil => simp [lexLess] at h1
    | cons y ys =>
      cases zs with
      | nil => simp [lexLess] at h2
      | cons z zs => rfl
  | cons x rest ih =>
    cases ys with
    | nil => simp [lexLess] at h1
    | cons y ys =>
      cases zs with
      | nil => simp [lexLess] at h2
      | cons z zs =>
        simp only [lexLess] at h1 h2 ⊢
        split_ifs at h1 h2 ⊢
        all_goals first
          | omega
          | rfl
          | exact ih ys zs h1 h2

theorem lexLess_total (xs ys : List Nat) (h1 : lexLess xs ys = false)
    (h2 : lexLess ys xs = false) : xs = ys := by
  induction xs generalizing ys with
  | nil => cases ys <;> simp [lexLess] at h1 ⊢
  | cons x rest ih =>
    cases ys with
    | nil => simp [lexLess] at h2
    | cons y ys =>
      simp only [lexLess] at h1 h2
      split_ifs at h1 h2 with g1 g2
      all_goals first
        | omega
        | simp at h1
        | simp at h2
        | (have hxy : x = y := by omega
           rw [hxy, ih ys h1 h2])

theorem bytesOf_injective (be : Bool) (xs ys : List Nat) (hx : ∀ e ∈ xs, e < 65536)
    (hy : ∀ e ∈ ys, e < 65536) (h : bytesOf be xs = bytesOf be ys) : xs = ys := by
  induction xs generalizing ys with
  | nil =>
    cases ys with
    | nil => rfl
    | cons y ys => cases be <;> simp [bytesOf] at h
  | cons x rest ih =>
    cases ys with
    | nil => cases be <;> simp [bytesOf] at h
    | cons y ys =>
      have hx0 := hx x (List.mem_cons_self _ _)
      have hy0 := hy y (List.mem_cons_self _ _)
      have hrest : bytesOf be rest = bytesOf be ys ∧ x = y := by
        cases be
        · simp only [bytesOf, Bool.false_eq_true, if_false, List.cons.injEq] at h
          exact ⟨h.2.2, by omega⟩
        · simp only [bytesOf, if_true, List.cons.injEq] at h
          exact ⟨h.2.2, by omega⟩
      rw [hrest.2, ih ys (fun e he => hx e (List.mem_cons_of_mem _ he))
        (fun e he => hy e (List.mem_cons_of_mem _ he)) hrest.1]

/-- The comparator of the content-comparison build as one boolean: fewer
elements, or as many and the bytes first in lexicographic order. -/
theorem ltutf8_content (be : Bool) (s1 s2 : UTF8) :
    ltutf8 true be s1 s2 =
      (decide (s1.size < s2.size) ||
        (decide (s1.size = s2.size) &&
          lexLess (bytesOf be s1.elements) (bytesOf be s2.elements))) := by
  simp only [ltutf8, if_true]
  by_cases h1 : s1.size < s2.size
  · simp [h1]
  · by_cases h2 : s1.size > s2.size
    · have h3 : s1.size ≠ s2.size := by omega
      simp [h1, h2, h3]
    · have h3 : s1.size = s2.size := by omega
      have hx : (bytesOf be s1.elements).length = s1.size * 2 := bytesOf_length be _
      have hy : (bytesOf be s2.elements).length = s1.size * 2 := by
        rw [h3]
        exact bytesOf_length be _
      have := memcmp_neg_iff_lexLess (s1.size * 2) _ _ hx hy
      have e1 : decide (s1.size < s2.size) = false := by simp [h1]
      have e2 : decide (s1.size = s2.size) = true := by simp [h3]
      rw [if_neg h1, if_neg h2, e1, e2, Bool.false_or, Bool.true_and, Bool.eq_iff_iff,
        decide_eq_true_eq]
      exact this

theorem ltutf8_trans (mvm be : Bool) (s1 s2 s3 : UTF8) (h12 : ltutf8 mvm be s1 s2 = true)
    (h23 : ltutf8 mvm be s2 s3 = true) : ltutf8 mvm be s1 s3 = true := by
  cases mvm with
  | false =>
    simp only [ltutf8, Bool.false_eq_true, if_false, decide_eq_true_eq] at h12 h23 ⊢
    omega
  | true =>
    rw [ltutf8_content] at h12 h23 ⊢
    simp only [Bool.or_eq_true, Bool.and_eq_true, decide_eq_true_eq] at h12 h23 ⊢
    rcases h12 with h12 | ⟨e12, l12⟩
    · rcases h23 with h23 | ⟨e23, _⟩
      · exact Or.inl (by omega)
      · exact Or.inl (by omega)
    · rcases h23 with h23 | ⟨e23, l23⟩
      · exact Or.inl (by omega)
      · exact Or.inr ⟨by omega, lexLess_trans _ _ _ l12 l23⟩

/-- Symbols that `ltutf8` puts neither way round, in the content-comparison
build, have the same bytes. -/
theorem ltutf8_equiv_bytes (be : Bool) (s1 s2 : UTF8) (h12 : ltutf8 true be s1 s2 = false)
    (h21 : ltutf8 true be s2 s1 = false) :
    s1.size = s2.size ∧ bytesOf be s1.elements = bytesOf be s2.elements := by
  rw [ltutf8_content] at h12 h21
  simp only [Bool.or_eq_false_iff, Bool.and_eq_false_iff, decide_eq_false_iff_not] at h12 h21
  have hs : s1.size = s2.size := by omega
  refine ⟨hs, lexLess_total _ _ ?_ ?_⟩
  · rcases h12.2 with h | h
    · exact absurd hs h
    · exact h
  · rcases h21.2 with h | h
    · exact absurd hs.symm h
    · exact h

theorem ltutf8_of_same_bytes (be : Bool) (s1 s2 : UTF8) (hs : s1.size = s2.size)
    (hb : bytesOf be s1.elements = bytesOf be s2.elements) (x : UTF8) :
    ltutf8 true be x s1 = ltutf8 true be x s2 ∧ ltutf8 true be s1 x = ltutf8 true be s2 x := by
  rw [ltutf8_content, ltutf8_content, ltutf8_content, ltutf8_content, hs, hb]
  exact ⟨rfl, rfl⟩

/-- The comparator `ltutf8` is a strict weak ordering, in both builds. -/
theorem strictWeak_ltutf8 (mvm be : Bool) : StrictWeak (ltutf8 mvm be) := by
  refine ⟨ltutf8_irrefl mvm be, ltutf8_trans mvm be, ?_⟩
  intro a b c hab hba hbc hcb
  cases mvm with
  | false =>
    simp only [ltutf8, Bool.false_eq_true, if_false, decide_eq_false_iff_not] at hab hba hbc hcb ⊢
    omega
  | true =>
    have h1 := ltutf8_equiv_bytes be a b hab hba
    have h2 := ltutf8_equiv_bytes be b c hbc hcb
    have h3 := ltutf8_of_same_bytes be a c (h1.1.trans h2.1) (h1.2.trans h2.2)
    exact ⟨by rw [← (h3 a).1, ltutf8_irrefl], by rw [(h3 c).1, ltutf8_irrefl]⟩

/-- C16: in the content-comparison build `ltutf8` is irreflexive and
transitive, and of two symbols whose elements are `uint16` values exactly one
of three holds: the first is less, the second is less, or they have the same
size and the same elements.  Two symbol objects with the same elements are one
key: after `hash(s1, V)` on a table without that key, `lookup(s2)` returns
`V`. -/
theorem ltutf8_strict_total (be : Bool) (s1 s2 s3 : UTF8) [Zero C] (ts : LockedMap UTF8 C W)
    (V : C) :
    ltutf8 true be s1 s1 = false ∧
    (ltutf8 true be s1 s2 = true → ltutf8 true be s2 s3 = true →
      ltutf8 true be s1 s3 = true) ∧
    (s1.WellFormed → s2.WellFormed →
      (ltutf8 true be s1 s2 = true ∧ ltutf8 true be s2 s1 = false ∧
        ¬ (s1.size = s2.size ∧ s1.elements = s2.elements)) ∨
      (ltutf8 true be s1 s2 = false ∧ ltutf8 true be s2 s1 = true ∧
        ¬ (s1.size = s2.size ∧ s1.elements = s2.elements)) ∨
      (ltutf8 true be s1 s2 = false ∧ ltutf8 true be s2 s1 = false ∧
        (s1.size = s2.size ∧ s1.elements = s2.elements))) ∧
    (s1.elements = s2.elements → find (ltutf8 true be) s1 ts.map = none →
      (LockedMap.lookup (ltutf8 true be) s2 (LockedMap.hash (ltutf8 true be) s1 V ts)).1
        = V) := by
  refine ⟨ltutf8_irrefl true be s1, ltutf8_trans true be s1 s2 s3, ?_, ?_⟩
  · intro hw1 hw2
    have hsw := strictWeak_ltutf8 true be
    cases h12 : ltutf8 true be s1 s2 with
    | true =>
      refine Or.inl ⟨rfl, hsw.asymm s1 s2 h12, ?_⟩
      rintro ⟨_, he⟩
      have : ltutf8 true be s1 s2 = ltutf8 true be s1 s1 := by
        simp only [ltutf8, UTF8.size, he, if_true]
      rw [this, ltutf8_irrefl] at h12
      exact absurd h12 (by simp)
    | false =>
      cases h21 : ltutf8 true be s2 s1 with
      | true =>
        refine Or.inr (Or.inl ⟨rfl, rfl, ?_⟩)
        rintro ⟨_, he⟩
        have : ltutf8 true be s2 s1 = ltutf8 true be s1 s1 := by
          simp only [ltutf8, UTF8.size, he, if_true]
        rw [this, ltutf8_irrefl] at h21
        exact absurd h21 (by simp)
      | false =>
        have hb := ltutf8_equiv_bytes be s1 s2 h12 h21
        exact Or.inr (Or.inr ⟨rfl, rfl, hb.1,
          bytesOf_injective be _ _ hw1 hw2 hb.2⟩)
  · intro he hnone
    have hc : ∀ x, ltutf8 true be x s2 = ltutf8 true be x s1 ∧
        ltutf8 true be s2 x = ltutf8 true be s1 x := by
      intro x
      simp only [ltutf8, UTF8.size, he, if_true, and_self]
    have hf := find_insert_self (ltutf8 true be) (ltutf8_irrefl true be) s1 V ts.map
    rw [hnone, Option.getD_none] at hf
    simp only [LockedMap.lookup, LockedMap.hash, LockedMap.lock, LockedMap.unlock]
    rw [find_congr (ltutf8 true be) s2 s1 (fun x => (hc x).1) (fun x => (hc x).2), hf]

/-- C16, an instance: the symbols at the addresses 1 and 2 both spell the
elements 104, 105; neither is less than the other, and a value hashed under
the first is found under the second. -/
theorem ltutf8_strict_total_witness :
    (⟨1, [104, 105]⟩ : UTF8).WellFormed ∧ (⟨2, [104, 105]⟩ : UTF8).WellFormed ∧
    ltutf8 true false ⟨1, [104]⟩ ⟨2, [104, 105]⟩ = true ∧
    ltutf8 true false ⟨2, [104, 105]⟩ ⟨3, [104, 106]⟩ = true ∧
    ltutf8 true false ⟨1, [104]⟩ ⟨3, [104, 106]⟩ = true ∧
    ltutf8 true false ⟨1, [104, 105]⟩ ⟨2, [104, 105]⟩ = false ∧
    find (ltutf8 true false) ⟨1, [104, 105]⟩
      (⟨false, [(⟨7, [97]⟩, 5)], (), 0⟩ : LockedMap UTF8 Nat Unit).map = none ∧
    (LockedMap.lookup (ltutf8 true false) ⟨2, [104, 105]⟩
      (LockedMap.hash (ltutf8 true false) ⟨1, [104, 105]⟩ 9
        (⟨false, [(⟨7, [97]⟩, 5)], (), 0⟩ : LockedMap UTF8 Nat Unit))).1 = 9 :=
  have hw1 : (⟨1, [104, 105]⟩ : UTF8).WellFormed := by
    intro e he
    simp at he
    omega
  have hw2 : (⟨2, [104, 105]⟩ : UTF8).WellFormed := by
    intro e he
    simp at he
    omega
  have h := ltutf8_strict_total false ⟨1, [104, 105]⟩ ⟨2, [104, 105]⟩ ⟨3, [104, 106]⟩
    (⟨false, [(⟨7, [97]⟩, 5)], (), 0⟩ : LockedMap UTF8 Nat Unit) 9
  have ht := (ltutf8_strict_total false ⟨1, [104]⟩ ⟨2, [104, 105]⟩ ⟨3, [104, 106]⟩
    (⟨false, [], (), 0⟩ : LockedMap UTF8 Nat Unit) 0).2.1 (by decide) (by decide)
  have h3 : ltutf8 true false ⟨1, [104, 105]⟩ ⟨2, [104, 105]⟩ = false := by
    rcases h.2.2.1 hw1 hw2 with g | g | g
    · exact absurd ⟨rfl, rfl⟩ g.2.2
    · exact g.1
    · exact g.1
  ⟨hw1, hw2, by decide, by decide, ht, h3, by decide, h.2.2.2 rfl (by decide)⟩

end ContentOrder

/-! ## The key order of a table is kept by its operations -/

section OrderKept

variable {K C W Vm : Type}

/-- The operations of a `LockedMap` keep the entries in key order: the tables
that `hash`, `remove` and `lookupOrCreate` build from the empty table all have
it. -/
theorem operations_keep_order (lt : K → K → Bool) (hsw : StrictWeak lt) (s : LockedMap K C W)
    (hord : Ordered lt s.map) (k : K) (c : C) (vm : Vm) (func : K → Vm → W → C × W) :
    Ordered lt (LockedMap.hash lt k c s).map ∧
    Ordered lt (LockedMap.remove lt k s).map ∧
    Ordered lt (LockedMap.lookupOrCreate lt k vm func s).2.map := by
  refine ⟨insert_ordered lt hsw k c s.map hord, erase_ordered lt k s.map hord, ?_⟩
  cases h : find lt k s.map with
  | none =>
    rw [lookupOrCreate_absent lt k vm func s h]
    exact insert_ordered lt hsw k _ s.map hord
  | some I =>
    rw [lookupOrCreate_present lt k vm func s I h]
    exact hord

end OrderKept

/-! ## `lookupOrCreate`: concurrent calls -/

section ConcurrentTable

variable {K C W Vm : Type}

theorem tableGoto_pc (s : TableSys K C W) (t : Nat) (p : TablePc K C) (u : Nat) :
    (s.goto t p).pc u = if u = t then p else s.pc u := by
  simp [TableSys.goto, Function.update_apply]

theorem tableInv_init (lt : K → K → Bool) (V : K) (vm : Vm) (func : K → Vm → W → C × W)
    (tb : LockedMap K C W) (habsent : find lt V tb.map = none) :
    TableInv lt V vm func tb (TableSys.init tb) := by
  refine ⟨?_, ?_, ?_, ?_, ?_, Or.inl ⟨rfl, rfl, habsent⟩⟩ <;>
    simp [TableSys.init, TablePc.inLock, TablePc.value]

/-- A step that moves thread `t` and changes nothing of the table but the lock
keeps the invariant, if the lock is held where a thread is left between
`lock()` and `unlock()`, the thread enters that part alone, and the new place
agrees with the table. -/
theorem tableInv_move (lt : K → K → Bool) (V : K) (vm : Vm) (func : K → Vm → W → C × W)
    (tb : LockedMap K C W) (s s2 : TableSys K C W) (h : TableInv lt V vm func tb s)
    (t : Nat) (p : TablePc K C)
    (hpc : ∀ u, s2.pc u = if u = t then p else s.pc u)
    (hmap : s2.table.map = s.table.map) (hworld : s2.table.world = s.table.world)
    (hcreated : s2.table.created = s.table.created)
    (hb : ∀ u, u ≠ t → (s.pc u).inLock = true → s2.table.locked = true)
    (hp : p.inLock = true → s2.table.locked = true)
    (hal : p.inLock = true → ∀ u, u ≠ t → (s.pc u).inLock = false)
    (hcreate : p = TablePc.create →
      s.table.created = tb.created ∧ s.table.world = tb.world ∧
      find lt V s.table.map = none)
    (hinsert : ∀ res, p ≠ TablePc.insert res)
    (hvalue : ∀ res, p.value = some res →
      res = (func V vm tb.world).1 ∧ s.table.created = tb.created + 1 ∧
      s.table.world = (func V vm tb.world).2 ∧
      find lt V s.table.map = some (V, (func V vm tb.world).1))
    (hleave : ∀ res, s.pc t ≠ TablePc.insert res) :
    TableInv lt V vm func tb s2 := by
  refine ⟨?_, ?_, ?_, ?_, ?_, ?_⟩
  · intro u hu
    rw [hpc] at hu
    by_cases hut : u = t
    · simp only [hut, if_true] at hu
      exact hp hu
    · simp only [hut, if_false] at hu
      exact hb u hut hu
  · intro u v hu hv
    rw [hpc] at hu hv
    by_cases hut : u = t
    · by_cases hvt : v = t
      · rw [hut, hvt]
      · simp only [hut, if_true] at hu
        simp only [hvt, if_false] at hv
        rw [hal hu v hvt] at hv
        exact absurd hv (by simp)
    · by_cases hvt : v = t
      · simp only [hvt, if_true] at hv
        simp only [hut, if_false] at hu
        rw [hal hv u hut] at hu
        exact absurd hu (by simp)
      · simp only [hut, if_false] at hu
        simp only [hvt, if_false] at hv
        exact h.alone u v hu hv
  · intro u hu
    rw [hpc] at hu
    rw [hmap, hworld, hcreated]
    by_cases hut : u = t
    · simp only [hut, if_true] at hu
      exact hcreate hu
    · simp only [hut, if_false] at hu
      exact h.creating u hu
  · intro u res hu
    rw [hpc] at hu
    rw [hmap, hworld, hcreated]
    by_cases hut : u = t
    · simp only [hut, if_true] at hu
      exact absurd hu (hinsert res)
    · simp only [hut, if_false] at hu
      exact h.inserting u res hu
  · intro u res hu
    rw [hpc] at hu
    rw [hmap, hworld, hcreated]
    by_cases hut : u = t
    · simp only [hut, if_true] at hu
      exact hvalue res hu
    · simp only [hut, if_false] at hu
      exact h.valued u res hu
  · rw [hmap, hworld, hcreated]
    rcases h.once with h0 | ⟨h1, h2, h3⟩
    · exact Or.inl h0
    · refine Or.inr ⟨h1, h2, ?_⟩
      rcases h3 with h3 | ⟨u, hu⟩
      · exact Or.inl h3
      · refine Or.inr ⟨u, ?_⟩
        rw [hpc]
        by_cases hut : u = t
        · rw [hut] at hu
          exact absurd hu (hleave _)
        · simpa only [hut, if_false] using hu

theorem tableInv_once_absent (lt : K → K → Bool) (V : K) (vm : Vm)
    (func : K → Vm → W → C × W) (tb : LockedMap K C W) (s : TableSys K C W)
    (h : TableInv lt V vm func tb s) (t : Nat) (ht : (s.pc t).inLock = true)
    (hnot : ∀ res, s.pc t ≠ TablePc.insert res) (hfind : find lt V s.table.map = none) :
    s.table.created = tb.created ∧ s.table.world = tb.world ∧
    find lt V s.table.map = none := by
  rcases h.once with h0 | ⟨_, _, h3 | ⟨u, hu⟩⟩
  · exact h0
  · rw [hfind] at h3
    exact absurd h3 (by simp)
  · have hut := h.alone t u ht (by simp [hu, TablePc.inLock])
    rw [← hut] at hu
    exact absurd hu (hnot _)

theorem tableInv_once_present (lt : K → K → Bool) (V : K) (vm : Vm)
    (func : K → Vm → W → C × W) (tb : LockedMap K C W) (s : TableSys K C W)
    (h : TableInv lt V vm func tb s) (t : Nat) (ht : (s.pc t).inLock = true)
    (hnot : ∀ res, s.pc t ≠ TablePc.insert res) (I : K × C)
    (hfind : find lt V s.table.map = some I) :
    I = (V, (func V vm tb.world).1) ∧ s.table.created = tb.created + 1 ∧
    s.table.world = (func V vm tb.world).2 := by
  rcases h.once with ⟨_, _, h0⟩ | ⟨h1, h2, h3 | ⟨u, hu⟩⟩
  · rw [hfind] at h0
    exact absurd h0 (by simp)
  · rw [hfind] at h3
    exact ⟨Option.some.inj h3, h1, h2⟩
  · have hut := h.alone t u ht (by simp [hu, TablePc.inLock])
    rw [← hut] at hu
    exact absurd hu (hnot _)

theorem tableInv_step_simple (lt : K → K → Bool) (V : K) (vm : Vm)
    (func : K → Vm → W → C × W) (tb : LockedMap K C W) (s : TableSys K C W)
    (h : TableInv lt V vm func tb s) (t : Nat)
    (hpc : s.pc t = TablePc.start ∨ s.pc t = TablePc.search ∨
      (∃ res, s.pc t = TablePc.unlockNew res) ∨ (∃ I, s.pc t = TablePc.unlockOld I) ∨
      (∃ I, s.pc t = TablePc.returnOld I) ∨ (∃ res, s.pc t = TablePc.done res)) :
    TableInv lt V vm func tb (LockedMap.step lt V vm func t s) := by
  rcases hpc with hpc | hpc | ⟨res, hpc⟩ | ⟨I, hpc⟩ | ⟨I, hpc⟩ | ⟨res, hpc⟩
  · simp only [LockedMap.step, hpc]
    cases hl : s.table.locked with
    | true => simpa using h
    | false =>
      have hfree : ∀ u, (s.pc u).inLock = false := by
        intro u
        cases hu : (s.pc u).inLock with
        | false => rfl
        | true =>
          have := h.held u hu
          rw [hl] at this
          exact absurd this (by simp)
      simp only [Bool.false_eq_true, if_false]
      refine tableInv_move lt V vm func tb s _ h t TablePc.search
        (fun u => tableGoto_pc _ t _ u) rfl rfl rfl
        (fun _ _ _ => rfl) (fun _ => rfl) (fun _ u _ => hfree u)
        (by simp) (by simp) (by simp [TablePc.value]) (by simp [hpc])
  · have ht : (s.pc t).inLock = true := by simp [hpc, TablePc.inLock]
    have hnot : ∀ res, s.pc t ≠ TablePc.insert res := by simp [hpc]
    simp only [LockedMap.step, hpc]
    cases hf : find lt V s.table.map with
    | none =>
      simp only []
      refine tableInv_move lt V vm func tb s _ h t TablePc.create
        (fun u => tableGoto_pc _ t _ u) rfl rfl rfl
        (fun u _ hu => h.held u hu) (fun _ => h.held t ht) ?_
        (fun _ => tableInv_once_absent lt V vm func tb s h t ht hnot hf)
        (by simp) (by simp [TablePc.value]) hnot
      intro _ u hut
      cases hu : (s.pc u).inLock with
      | false => rfl
      | true => exact absurd (h.alone t u ht hu).symm hut
    | some I =>
      simp only []
      have hI := tableInv_once_present lt V vm func tb s h t ht hnot I hf
      refine tableInv_move lt V vm func tb s _ h t (TablePc.unlockOld I)
        (fun u => tableGoto_pc _ t _ u) rfl rfl rfl
        (fun u _ hu => h.held u hu) (fun _ => h.held t ht) ?_
        (by simp) (by simp) ?_ hnot
      · intro _ u hut
        cases hu : (s.pc u).inLock with
        | false => rfl
        | true => exact absurd (h.alone t u ht hu).symm hut
      · intro res hres
        simp only [TablePc.value, Option.some.injEq] at hres
        rw [← hres, hI.1]
        refine ⟨rfl, hI.2.1, hI.2.2, ?_⟩
        rw [hf, hI.1]
  · have ht : (s.pc t).inLock = true := by simp [hpc, TablePc.inLock]
    simp only [LockedMap.step, hpc]
    refine tableInv_move lt V vm func tb s _ h t (TablePc.done res)
      (fun u => tableGoto_pc _ t _ u) rfl rfl rfl
      ?_ (by simp [TablePc.inLock]) (by simp [TablePc.inLock]) (by simp) (by simp) ?_
      (by simp [hpc])
    · intro u hut hu
      exact absurd (h.alone t u ht hu).symm hut
    · intro r hr
      exact h.valued t r (by simpa [hpc, TablePc.value] using hr)
  · have ht : (s.pc t).inLock = true := by simp [hpc, TablePc.inLock]
    simp only [LockedMap.step, hpc]
    refine tableInv_move lt V vm func tb s _ h t (TablePc.returnOld I)
      (fun u => tableGoto_pc _ t _ u) rfl rfl rfl
      ?_ (by simp [TablePc.inLock]) (by simp [TablePc.inLock]) (by simp) (by simp) ?_
      (by simp [hpc])
    · intro u hut hu
      exact absurd (h.alone t u ht hu).symm hut
    · intro r hr
      exact h.valued t r (by simpa [hpc, TablePc.value] using hr)
  · simp only [LockedMap.step, hpc]
    refine tableInv_move lt V vm func tb s _ h t (TablePc.done I.2)
      (fun u => tableGoto_pc _ t _ u) rfl rfl rfl
      (fun u _ hu => h.held u hu) (by simp [TablePc.inLock]) (by simp [TablePc.inLock])
      (by simp) (by simp) ?_ (by simp [hpc])
    intro r hr
    exact h.valued t r (by simpa [hpc, TablePc.value] using hr)
  · simpa only [LockedMap.step, hpc] using h

theorem tableInv_step_create (lt : K → K → Bool) (V : K) (vm : Vm)
    (func : K → Vm → W → C × W) (tb : LockedMap K C W) (s : TableSys K C W)
    (h : TableInv lt V vm func tb s) (t : Nat) (hpc : s.pc t = TablePc.create) :
    TableInv lt V vm func tb (LockedMap.step lt V vm func t s) := by
  have ht : (s.pc t).inLock = true := by simp [hpc, TablePc.inLock]
  have hc := h.creating t hpc
  have hone : ∀ u, u ≠ t → (s.pc u).inLock = false := by
    intro u hut
    cases hu : (s.pc u).inLock with
    | false => rfl
    | true => exact absurd (h.alone t u ht hu).symm hut
  simp only [LockedMap.step, hpc]
  refine ⟨?_, ?_, ?_, ?_, ?_, ?_⟩
  · intro u hu
    rw [tableGoto_pc] at hu
    by_cases hut : u = t
    · exact h.held t ht
    · simp only [hut, if_false] at hu
      exact h.held u hu
  · intro u v hu hv
    rw [tableGoto_pc] at hu hv
    by_cases hut : u = t
    · by_cases hvt : v = t
      · rw [hut, hvt]
      · simp only [hvt, if_false] at hv
        rw [hone v hvt] at hv
        exact absurd hv (by simp)
    · simp only [hut, if_false] at hu
      rw [hone u hut] at hu
      exact absurd hu (by simp)
  · intro u hu
    rw [tableGoto_pc] at hu
    by_cases hut : u = t
    · simp [hut] at hu
    · simp only [hut, if_false] at hu
      have := hone u hut
      rw [hu] at this
      simp [TablePc.inLock] at this
  · intro u res hu
    rw [tableGoto_pc] at hu
    by_cases hut : u = t
    · simp only [hut, if_true, TablePc.insert.injEq] at hu
      rw [← hu, hc.2.1]
      exact ⟨rfl, by simp [TableSys.goto, hc.1], rfl, hc.2.2⟩
    · simp only [hut, if_false] at hu
      have := hone u hut
      rw [hu] at this
      simp [TablePc.inLock] at this
  · intro u res hu
    rw [tableGoto_pc] at hu
    by_cases hut : u = t
    · simp [hut, TablePc.value] at hu
    · simp only [hut, if_false] at hu
      have := (h.valued u res hu).2.1
      rw [hc.1] at this
      omega
  · refine Or.inr ⟨by simp [TableSys.goto, hc.1], ?_, Or.inr ⟨t, ?_⟩⟩
    · show (func V vm s.table.world).2 = (func V vm tb.world).2
      rw [hc.2.1]
    · rw [tableGoto_pc, hc.2.1]
      simp

theorem tableInv_step_insert (lt : K → K → Bool) (hirr : ∀ a, lt a a = false) (V : K) (vm : Vm)
    (func : K → Vm → W → C × W) (tb : LockedMap K C W) (s : TableSys K C W)
    (h : TableInv lt V vm func tb s) (t : Nat) (res : C)
    (hpc : s.pc t = TablePc.insert res) :
    TableInv lt V vm func tb (LockedMap.step lt V vm func t s) := by
  have ht : (s.pc t).inLock = true := by simp [hpc, TablePc.inLock]
  have hi := h.inserting t res hpc
  have hone : ∀ u, u ≠ t → (s.pc u).inLock = false := by
    intro u hut
    cases hu : (s.pc u).inLock with
    | false => rfl
    | true => exact absurd (h.alone t u ht hu).symm hut
  have hfound : find lt V (insert lt V res s.table.map)
      = some (V, (func V vm tb.world).1) := by
    rw [find_insert_self lt hirr V res s.table.map, hi.2.2.2, Option.getD_none, hi.1]
  simp only [LockedMap.step, hpc]
  refine ⟨?_, ?_, ?_, ?_, ?_, ?_⟩
  · intro u hu
    rw [tableGoto_pc] at hu
    by_cases hut : u = t
    · exact h.held t ht
    · simp only [hut, if_false] at hu
      exact h.held u hu
  · intro u v hu hv
    rw [tableGoto_pc] at hu hv
    by_cases hut : u = t
    · by_cases hvt : v = t
      · rw [hut, hvt]
      · simp only [hvt, if_false] at hv
        rw [hone v hvt] at hv
        exact absurd hv (by simp)
    · simp only [hut, if_false] at hu
      rw [hone u hut] at hu
      exact absurd hu (by simp)
  · intro u hu
    rw [tableGoto_pc] at hu
    by_cases hut : u = t
    · simp [hut] at hu
    · simp only [hut, if_false] at hu
      have := hone u hut
      rw [hu] at this
      simp [TablePc.inLock] at this
  · intro u r hu
    rw [tableGoto_pc] at hu
    by_cases hut : u = t
    · simp [hut] at hu
    · simp only [hut, if_false] at hu
      have := hone u hut
      rw [hu] at this
      simp [TablePc.inLock] at this
  · intro u r hu
    rw [tableGoto_pc] at hu
    by_cases hut : u = t
    · simp only [hut, if_true, TablePc.value, Option.some.injEq] at hu
      rw [← hu]
      exact ⟨hi.1, hi.2.1, hi.2.2.1, hfound⟩
    · simp only [hut, if_false] at hu
      have := (h.valued u r hu).2.2.2
      rw [hi.2.2.2] at this
      exact absurd this (by simp)
  · exact Or.inr ⟨hi.2.1, hi.2.2.1, Or.inl hfound⟩

theorem tableInv_step (lt : K → K → Bool) (hirr : ∀ a, lt a a = false) (V : K) (vm : Vm)
    (func : K → Vm → W → C × W) (tb : LockedMap K C W) (s : TableSys K C W)
    (h : TableInv lt V vm func tb s) (t : Nat) :
    TableInv lt V vm func tb (LockedMap.step lt V vm func t s) := by
  cases hpc : s.pc t with
  | start => exact tableInv_step_simple lt V vm func tb s h t (by simp [hpc])
  | search => exact tableInv_step_simple lt V vm func tb s h t (by simp [hpc])
  | create => exact tableInv_step_create lt V vm func tb s h t hpc
  | insert res => exact tableInv_step_insert lt hirr V vm func tb s h t res hpc
  | unlockNew res => exact tableInv_step_simple lt V vm func tb s h t (by simp [hpc])
  | unlockOld I => exact tableInv_step_simple lt V vm func tb s h t (by simp [hpc])
  | returnOld I => exact tableInv_step_simple lt V vm func tb s h t (by simp [hpc])
  | done res => exact tableInv_step_simple lt V vm func tb s h t (by simp [hpc])

theorem tableInv_runSchedule (lt : K → K → Bool) (hirr : ∀ a, lt a a = false) (V : K) (vm : Vm)
    (func : K → Vm → W → C × W) (tb : LockedMap K C W) (sched : List Nat)
    (s : TableSys K C W) (h : TableInv lt V vm func tb s) :
    TableInv lt V vm func tb (LockedMap.runSchedule lt V vm func sched s) := by
  induction sched generalizing s with
  | nil => exact h
  | cons t rest ih => exact ih _ (tableInv_step lt hirr V vm func tb s h t)

/-- What the invariant gives for the calls: the creator has been invoked once
at most, and a call that has returned has returned the value of the one
invocation, made on the state the table started with. -/
theorem tableInv_result (lt : K → K → Bool) (V : K) (vm : Vm) (func : K → Vm → W → C × W)
    (tb : LockedMap K C W) (s : TableSys K C W) (h : TableInv lt V vm func tb s) :
    s.table.created ≤ tb.created + 1 ∧
    ∀ t res, s.pc t = TablePc.done res →
      res = (func V vm tb.world).1 ∧ s.table.created = tb.created + 1 ∧
      s.table.world = (func V vm tb.world).2 := by
  constructor
  · rcases h.once with h0 | h1
    · omega
    · omega
  · intro t res ht
    have := h.valued t res (by simp [ht, TablePc.value])
    exact ⟨this.1, this.2.1, this.2.2.1⟩

theorem stringStep_toTableSys (mvm be : Bool) (V : UTF8) (vm : Vm)
    (func : UTF8 → Vm → W → Nat × W) (t : Nat) (s : StringSys W) :
    (StringMap.step mvm be V vm func t s).toTableSys
      = LockedMap.step (ltutf8 mvm be) V vm func t s.toTableSys := by
  cases hpc : s.pc t with
  | start =>
    cases hl : s.table.locked <;>
      simp [StringMap.step, LockedMap.step, StringSys.toTableSys, TableSys.goto,
        LockedMap.lock, hpc, hl]
  | search =>
    cases hf : find (ltutf8 mvm be) V s.table.map <;>
      simp [StringMap.step, LockedMap.step, StringSys.toTableSys, TableSys.goto, hpc, hf]
  | create =>
    simp [StringMap.step, LockedMap.step, StringSys.toTableSys, TableSys.goto, hpc]
  | insert res =>
    simp [StringMap.step, LockedMap.step, StringSys.toTableSys, TableSys.goto, hpc]
  | unlockNew res =>
    simp [StringMap.step, LockedMap.step, StringSys.toTableSys, TableSys.goto,
      LockedMap.unlock, hpc]
  | unlockOld I =>
    simp [StringMap.step, LockedMap.step, StringSys.toTableSys, TableSys.goto,
      LockedMap.unlock, hpc]
  | returnOld I =>
    simp [StringMap.step, LockedMap.step, StringSys.toTableSys, TableSys.goto, hpc]
  | done res =>
    simp [StringMap.step, LockedMap.step, StringSys.toTableSys, hpc]

theorem stringRun_toTableSys (mvm be : Bool) (V : UTF8) (vm : Vm)
    (func : UTF8 → Vm → W → Nat × W) (sched : List Nat) (s : StringSys W) :
    (StringMap.runSchedule mvm be V vm func sched s).toTableSys
      = LockedMap.runSchedule (ltutf8 mvm be) V vm func sched s.toTableSys := by
  induction sched generalizing s with
  | nil => rfl
  | cons t rest ih =>
    simp only [StringMap.runSchedule, LockedMap.runSchedule, ih, stringStep_toTableSys]

theorem tableRun_append (lt : K → K → Bool) (V : K) (vm : Vm) (func : K → Vm → W → C × W)
    (a b : List Nat) (s : TableSys K C W) :
    LockedMap.runSchedule lt V vm func (a ++ b) s
      = LockedMap.runSchedule lt V vm func b (LockedMap.runSchedule lt V vm func a s) := by
  induction a generalizing s with
  | nil => rfl
  | cons t rest ih => exact ih (LockedMap.step lt V vm func t s)

/-- A thread that takes its five steps with no step of another thread in
between does what the method `lookupOrCreate` does: the table it leaves and
the value it returns are those of `LockedMap.lookupOrCreate`. -/
theorem turn_agrees (lt : K → K → Bool) (V : K) (vm : Vm) (func : K → Vm → W → C × W)
    (s : TableSys K C W) (t : Nat) (hpc : s.pc t = TablePc.start)
    (hl : s.table.locked = false) :
    LockedMap.runSchedule lt V vm func (List.replicate 5 t) s
      = ⟨(LockedMap.lookupOrCreate lt V vm func s.table).2,
         Function.update s.pc t
           (TablePc.done (LockedMap.lookupOrCreate lt V vm func s.table).1)⟩ := by
  cases hf : find lt V s.table.map with
  | none =>
    simp [List.replicate, LockedMap.runSchedule, LockedMap.step, TableSys.goto,
      LockedMap.lookupOrCreate, LockedMap.lock, LockedMap.unlock, hpc, hl, hf]
  | some I =>
    simp [List.replicate, LockedMap.runSchedule, LockedMap.step, TableSys.goto,
      LockedMap.lookupOrCreate, LockedMap.lock, LockedMap.unlock, hpc, hl, hf]

/-- With the lock free at the start, the schedule of turns brings every one of
the `n` calls to its return, each with the value of the one creation. -/
theorem turns_all_return (lt : K → K → Bool) (hirr : ∀ a, lt a a = false) (V : K) (vm : Vm)
    (func : K → Vm → W → C × W) (tb : LockedMap K C W) (hfree : tb.locked = false)
    (habsent : find lt V tb.map = none) (n : Nat) :
    (∀ t, t < n →
      (LockedMap.runSchedule lt V vm func (turnSchedule n) (TableSys.init tb)).pc t
        = TablePc.done (func V vm tb.world).1) ∧
    (∀ t, n ≤ t →
      (LockedMap.runSchedule lt V vm func (turnSchedule n) (TableSys.init tb)).pc t
        = TablePc.start) ∧
    (LockedMap.runSchedule lt V vm func (turnSchedule n) (TableSys.init tb)).table.locked
      = false ∧
    (n = 0 →
      (LockedMap.runSchedule lt V vm func (turnSchedule n) (TableSys.init tb)).table = tb) ∧
    (1 ≤ n →
      find lt V
        (LockedMap.runSchedule lt V vm func (turnSchedule n) (TableSys.init tb)).table.map
        = some (V, (func V vm tb.world).1)) := by
  induction n with
  | zero =>
    refine ⟨fun t ht => absurd ht (by omega), fun t _ => rfl, hfree, fun _ => rfl,
      fun h => absurd h (by omega)⟩
  | succ n ih =>
    obtain ⟨hdone, hstart, hlock, hzero, hsome⟩ := ih
    simp only [turnSchedule, tableRun_append]
    rw [turn_agrees lt V vm func _ n (hstart n (Nat.le_refl n)) hlock]
    rcases Nat.eq_zero_or_pos n with hn | hn
    · subst hn
      have htb := hzero rfl
      rw [htb, lookupOrCreate_absent lt V vm func tb habsent]
      have hf := find_insert_self lt hirr V (func V vm tb.world).1 tb.map
      rw [habsent, Option.getD_none] at hf
      refine ⟨?_, ?_, rfl, fun h => absurd h (by omega), fun _ => hf⟩
      · intro t ht
        have : t = 0 := by omega
        subst this
        simp
      · intro t ht
        have hne : t ≠ 0 := by omega
        simp only [Function.update_apply, hne, if_false]
        exact hstart t (by omega)
    · have hfound := hsome hn
      rw [lookupOrCreate_present lt V vm func _ _ hfound]
      refine ⟨?_, ?_, rfl, fun h => absurd h (by omega), fun _ => hfound⟩
      · intro t ht
        by_cases htn : t = n
        · subst htn
          simp
        · simp only [Function.update_apply, htn, if_false]
          exact hdone t (by omega)
      · intro t ht
        have hne : t ≠ n := by omega
        simp only [Function.update_apply, hne, if_false]
        exact hstart t (by omega)

/-- C4: `N ≥ 1` threads call `lookupOrCreate(K, vm, f)` on a table in which `K`
has no entry, their steps interleaved in any order, the lock of the table
exclusive.  In every state they reach `f` has been invoked once at most, every
call that has returned has returned the value `f` made on the state the table
started with, and `f` has then been invoked exactly once; so when all `N`
calls have returned, they have returned one value after one invocation.  With
the lock free at the start there is a schedule on which all `N` calls return.
The same holds for `StringMap::lookupOrCreate`. -/
theorem lookupOrCreate_at_most_once (lt : K → K → Bool) (hirr : ∀ a, lt a a = false)
    (tb : LockedMap K C W) (k : K) (vm : Vm) (func : K → Vm → W → C × W) (n : Nat)
    (hn : 1 ≤ n) (habsent : find lt k tb.map = none) (sched : List Nat)
    (mvm be : Bool) (sb : StringMap W) (u : UTF8) (sfunc : UTF8 → Vm → W → Nat × W)
    (hsabsent : find (ltutf8 mvm be) u sb.map = none) :
    ((LockedMap.runSchedule lt k vm func sched (TableSys.init tb)).table.created
        ≤ tb.created + 1 ∧
      (∀ t res, (LockedMap.runSchedule lt k vm func sched (TableSys.init tb)).pc t
          = TablePc.done res →
        res = (func k vm tb.world).1 ∧
        (LockedMap.runSchedule lt k vm func sched (TableSys.init tb)).table.created
          = tb.created + 1) ∧
      ((∀ t, t < n →
          ∃ res, (LockedMap.runSchedule lt k vm func sched (TableSys.init tb)).pc t
            = TablePc.done res) →
        (LockedMap.runSchedule lt k vm func sched (TableSys.init tb)).table.created
          = tb.created + 1 ∧
        ∀ t, t < n → (LockedMap.runSchedule lt k vm func sched (TableSys.init tb)).pc t
          = TablePc.done (func k vm tb.world).1) ∧
      (tb.locked = false → ∀ t, t < n →
        (LockedMap.runSchedule lt k vm func (turnSchedule n) (TableSys.init tb)).pc t
          = TablePc.done (func k vm tb.world).1)) ∧
    ((StringMap.runSchedule mvm be u vm sfunc sched (StringSys.init sb)).table.created
        ≤ sb.created + 1 ∧
      (∀ t res, (StringMap.runSchedule mvm be u vm sfunc sched (StringSys.init sb)).pc t
          = TablePc.done res →
        res = (sfunc u vm sb.world).1 ∧
        (StringMap.runSchedule mvm be u vm sfunc sched (StringSys.init sb)).table.created
          = sb.created + 1) ∧
      ((∀ t, t < n →
          ∃ res, (StringMap.runSchedule mvm be u vm sfunc sched (StringSys.init sb)).pc t
            = TablePc.done res) →
        (StringMap.runSchedule mvm be u vm sfunc sched (StringSys.init sb)).table.created
          = sb.created + 1 ∧
        ∀ t, t < n → (StringMap.runSchedule mvm be u vm sfunc sched (StringSys.init sb)).pc t
          = TablePc.done (sfunc u vm sb.world).1) ∧
      (sb.locked = false → ∀ t, t < n →
        (StringMap.runSchedule mvm be u vm sfunc (turnSchedule n) (StringSys.init sb)).pc t
          = TablePc.done (sfunc u vm sb.world).1)) := by
  constructor
  · have hinv := tableInv_runSchedule lt hirr k vm func tb sched _
      (tableInv_init lt k vm func tb habsent)
    have hres := tableInv_result lt k vm func tb _ hinv
    refine ⟨hres.1, fun t res ht => ⟨(hres.2 t res ht).1, (hres.2 t res ht).2.1⟩, ?_, ?_⟩
    · intro hall
      obtain ⟨r0, h0⟩ := hall 0 (by omega)
      refine ⟨(hres.2 0 r0 h0).2.1, ?_⟩
      intro t ht
      obtain ⟨r, hr⟩ := hall t ht
      rw [hr, (hres.2 t r hr).1]
    · intro hfree t ht
      exact (turns_all_return lt hirr k vm func tb hfree habsent n).1 t ht
  · have hinv := tableInv_runSchedule (ltutf8 mvm be) (ltutf8_irrefl mvm be) u vm sfunc
      sb.toLockedMap sched _ (tableInv_init (ltutf8 mvm be) u vm sfunc sb.toLockedMap hsabsent)
    have hres := tableInv_result (ltutf8 mvm be) u vm sfunc sb.toLockedMap _ hinv
    have e : TableSys.init sb.toLockedMap = (StringSys.init sb).toTableSys := rfl
    rw [e, ← stringRun_toTableSys] at hres
    refine ⟨hres.1, fun t res ht => ⟨(hres.2 t res ht).1, (hres.2 t res ht).2.1⟩, ?_, ?_⟩
    · intro hall
      obtain ⟨r0, h0⟩ := hall 0 (by omega)
      refine ⟨(hres.2 0 r0 h0).2.1, ?_⟩
      intro t ht
      obtain ⟨r, hr⟩ := hall t ht
      rw [hr, (hres.2 t r hr).1]
      rfl
    · intro hfree t ht
      have hlive := (turns_all_return (ltutf8 mvm be) (ltutf8_irrefl mvm be) u vm sfunc
        sb.toLockedMap hfree hsabsent n).1 t ht
      rw [e, ← stringRun_toTableSys] at hlive
      exact hlive

/-- C4, an instance: three threads race for the absent key 2 with a creator
that numbers what it makes.  Thread 0 gets the lock and creates while the
threads 1 and 2 wait at `lock()`; they find the entry afterwards.  All three
return 207 after one invocation of the creator. -/
theorem lookupOrCreate_at_most_once_witness :
    (∀ a, ptrLess a a = false) ∧ 1 ≤ 3 ∧
    find ptrLess 2 (⟨false, [(1, 10)], 7, 0⟩ : LockedMap Nat Nat Nat).map = none ∧
    (LockedMap.runSchedule ptrLess 2 () (fun k _ w => (100 * k + w, w + 1))
      [0, 1, 2, 0, 1, 0, 2, 0, 0, 1, 1, 2, 1, 1, 2, 2, 2, 2]
      (TableSys.init (⟨false, [(1, 10)], 7, 0⟩ : LockedMap Nat Nat Nat))).table.created = 1 ∧
    (∀ t, t < 3 →
      (LockedMap.runSchedule ptrLess 2 () (fun k _ w => (100 * k + w, w + 1))
        [0, 1, 2, 0, 1, 0, 2, 0, 0, 1, 1, 2, 1, 1, 2, 2, 2, 2]
        (TableSys.init (⟨false, [(1, 10)], 7, 0⟩ : LockedMap Nat Nat Nat))).pc t
        = TablePc.done 207) ∧
    (LockedMap.runSchedule ptrLess 2 () (fun k _ w => (100 * k + w, w + 1))
      [0, 1, 2, 0, 1, 0, 2, 0, 0, 1, 1, 2, 1, 1, 2, 2, 2, 2]
      (TableSys.init (⟨false, [(1, 10)], 7, 0⟩ : LockedMap Nat Nat Nat))).table.map
      = [(1, 10), (2, 207)] ∧
    (StringMap.runSchedule true false ⟨5, [97]⟩ ()
      (fun (k : UTF8) (_ : Unit) (w : Nat) => (100 * k.addr + w, w + 1))
      [0, 1, 0, 1, 0, 0, 0, 1, 1, 1, 1]
      (StringSys.init (⟨false, [], 7, 0⟩ : StringMap Nat))).pc 1 = TablePc.done 507 :=
  have h := lookupOrCreate_at_most_once ptrLess (fun a => by simp [ptrLess])
    (⟨false, [(1, 10)], 7, 0⟩ : LockedMap Nat Nat Nat) 2 ()
    (fun k _ w => (100 * k + w, w + 1)) 3 (by decide) (by decide)
    [0, 1, 2, 0, 1, 0, 2, 0, 0, 1, 1, 2, 1, 1, 2, 2, 2, 2]
    true false (⟨false, [], 7, 0⟩ : StringMap Nat) ⟨5, [97]⟩
    (fun (k : UTF8) (_ : Unit) (w : Nat) => (100 * k.addr + w, w + 1)) (by decide)
  have hall := h.1.2.2.1 (by
    intro t ht
    interval_cases t
    · exact ⟨207, by decide⟩
    · exact ⟨207, by decide⟩
    · exact ⟨207, by decide⟩)
  ⟨fun a => by simp [ptrLess], by decide, by decide, hall.1, hall.2, by decide, by decide⟩

end ConcurrentTable

end VMKit
